import Mathlib

/-!
# movie-splitcat: a shallow embedding of `movie-splitcat.go`

The program reads a tab separated manifest (`readSplitFile`), cuts one clip per
matching source file with an external transcoder (`splitMovies`,
`Movie.ffmpegSplit`), writes a concat list (`createConcatFile`) and merges the
clips (`ffmpegCombine`).

Conventions of the embedding.

* A Go `string` is a `List Char` (`Str`).  The separators the program looks for
  (tab, underscore, slash, newline) are ASCII, so working on characters or on
  UTF-8 bytes gives the same fields, and the lexicographic order is the same.
* `time.Duration` is an `Int` number of nanoseconds; `uint64` arithmetic in
  `time.ParseDuration` is on `Nat`, reduced modulo `2 ^ 64` where it can wrap.
* `float64` values are exact rationals, every operation rounding its exact
  result to 53 significant bits, ties to even (`F64`).  The values this program
  computes stay far inside the exponent range of binary64.
* The file system is a `World`; what the program does not decide (the external
  transcoder, directory listing, temporary names, path joining) is a `Host`.
  A run of the transcoder that times out is a run that fails.
* A Go function that may return an error, or panic, returns an `Outcome`; the
  existence checks and the runs of the transcoder are recorded in a trace.
* Logging and the closing of files have no effect on what is stated here and
  are left out.
-/

namespace MovieSplitcat

set_option maxRecDepth 100000

/-- A Go string. -/
abbrev Str := List Char

/-! ## binary64 arithmetic -/

/-- A finite `float64`, held as the exact rational `num / den`. -/
structure F64 where
  num : Int
  den : Nat
  deriving DecidableEq, Repr

/-- Position of the highest set bit of `n` (`0` for `n < 2`); `fuel` rounds
are enough when `n ≤ fuel`. -/
def log2Fuel : Nat → Nat → Nat
  | 0, _ => 0
  | fuel + 1, n => if n < 2 then 0 else log2Fuel fuel (n / 2) + 1

/-- Floor of the binary logarithm of a positive natural number. -/
def log2 (n : Nat) : Nat := log2Fuel n n

/-- Numerator and denominator of a non-negative rational scaled by `2 ^ s`. -/
def scalePow2 (n d : Nat) (s : Int) : Nat × Nat :=
  (n * 2 ^ s.toNat, d * 2 ^ (-s).toNat)

/-- Round the non-negative rational `n / d` to the nearest value with a 53 bit
significand, ties to even. -/
def roundNat (n d : Nat) : Nat × Nat :=
  if n = 0 then (0, 1)
  else
    let s0 : Int := 52 - ((log2 n : Int) - (log2 d : Int))
    let q0 := (scalePow2 n d s0).1 / (scalePow2 n d s0).2
    let s : Int := if q0 < 2 ^ 52 then s0 + 1 else s0
    let nd := scalePow2 n d s
    let m := nd.1 / nd.2
    let r := nd.1 % nd.2
    let m1 := if 2 * r > nd.2 ∨ (2 * r = nd.2 ∧ m % 2 = 1) then m + 1 else m
    (m1 * 2 ^ (-s).toNat, 2 ^ s.toNat)

/-- Round the rational `n / d` (with `0 < d`) to binary64. -/
def F64.round (n : Int) (d : Nat) : F64 :=
  let r := roundNat n.natAbs d
  if n < 0 then ⟨-(r.1 : Int), r.2⟩ else ⟨(r.1 : Int), r.2⟩

/-- Conversion `float64(i)` of an integer. -/
def F64.ofInt (i : Int) : F64 := F64.round i 1

/-- Float addition. -/
def F64.add (a b : F64) : F64 :=
  F64.round (a.num * b.den + b.num * a.den) (a.den * b.den)

/-- Float subtraction. -/
def F64.sub (a b : F64) : F64 :=
  F64.round (a.num * b.den - b.num * a.den) (a.den * b.den)

/-- Float multiplication. -/
def F64.mul (a b : F64) : F64 :=
  F64.round (a.num * b.num) (a.den * b.den)

/-- Float division by a non-zero divisor. -/
def F64.div (a b : F64) : F64 :=
  F64.round (a.num * b.den * b.num.sign) (a.den * b.num.natAbs)

/-- Conversion `int64(x)` / `uint64(x)` of a float in range: truncation toward zero. -/
def F64.trunc (a : F64) : Int := Int.tdiv a.num a.den

/-! ## package `time` -/

def Nanosecond : Int := 1
def Microsecond : Int := 1000 * Nanosecond
def Millisecond : Int := 1000 * Microsecond
def Second : Int := 1000 * Millisecond
def Minute : Int := 60 * Second
def Hour : Int := 60 * Minute

/-- The method `Duration.Seconds`: `float64(d / Second) + float64(d % Second) / 1e9`,
with Go's truncating integer division. -/
def Seconds (d : Int) : F64 :=
  let sec := Int.tdiv d Second
  let nsec := Int.tmod d Second
  F64.add (F64.ofInt sec) (F64.div (F64.ofInt nsec) (F64.ofInt 1000000000))

/-- A Go result `(value, error)`. -/
inductive Res (ε α : Type) where
  | ok (a : α)
  | error (e : ε)
  deriving DecidableEq, Repr

/-- Failures of `time.ParseDuration`. -/
inductive DurationError where
  | invalid
  | missingUnit
  | unknownUnit (u : Str)
  deriving DecidableEq, Repr

def isDigit (c : Char) : Bool := decide ('0' ≤ c) && decide (c ≤ '9')

/-- The helper `leadingInt` of package `time`: the leading digits of `s` as a
number below `2^63`, and the rest; `none` on overflow. -/
def leadingInt (x : Nat) : Str → Option (Nat × Str)
  | [] => some (x, [])
  | c :: cs =>
    if !isDigit c then some (x, c :: cs)
    else if x > 2 ^ 63 / 10 then none
    else
      let y := x * 10 + (c.toNat - 48)
      if y > 2 ^ 63 then none else leadingInt y cs

/-- The helper `leadingFraction` of package `time`: digits after the point as a
number `x` and a power of ten `scale`; digits that would overflow are dropped. -/
def leadingFraction (x : Nat) (scale : F64) (overflow : Bool) : Str → Nat × F64 × Str
  | [] => (x, scale, [])
  | c :: cs =>
    if !isDigit c then (x, scale, c :: cs)
    else if overflow then leadingFraction x scale true cs
    else if x > (2 ^ 63 - 1) / 10 then leadingFraction x scale true cs
    else
      let y := x * 10 + (c.toNat - 48)
      if y > 2 ^ 63 then leadingFraction x scale true cs
      else leadingFraction y (F64.mul scale (F64.ofInt 10)) false cs

/-- The table `unitMap` of package `time`. -/
def unitMap (u : Str) : Option Nat :=
  if u = "ns".toList then some 1
  else if u = "us".toList then some 1000
  else if u = "µs".toList then some 1000
  else if u = "μs".toList then some 1000
  else if u = "ms".toList then some 1000000
  else if u = "s".toList then some 1000000000
  else if u = "m".toList then some 60000000000
  else if u = "h".toList then some 3600000000000
  else none

/-- The step "consume `(\.[0-9]*)?`" of `time.ParseDuration`: the fraction `f`,
its `scale`, the rest of the text and `post`, whether a digit was consumed. -/
def fractionPart (s1 : Str) : Nat × F64 × Str × Bool :=
  match s1 with
  | '.' :: s2 =>
    let r := leadingFraction 0 (F64.ofInt 1) false s2
    (r.1, r.2.1, r.2.2, decide (s2.length ≠ r.2.2.length))
  | _ => (0, F64.ofInt 1, s1, false)

/-- One round of the loop of `time.ParseDuration`: a group
`[0-9]*(\.[0-9]*)?[a-z]+` at the head of the non-empty `s` is added to the sum
`d`, a `uint64`; the result is the new sum and the rest of `s`. -/
def parseGroup (d : Nat) : Str → Res DurationError (Nat × Str)
  | [] => .error .invalid
  | c :: cs =>
    if !(c = '.' || isDigit c) then .error .invalid
    else
      match leadingInt 0 (c :: cs) with
      | none => .error .invalid
      | some (v, s1) =>
        let pre := decide ((c :: cs).length ≠ s1.length)
        let fr := fractionPart s1
        let f := fr.1
        let scale := fr.2.1
        let s3 := fr.2.2.1
        let post := fr.2.2.2
        if !pre && !post then .error .invalid
        else
          let u := s3.takeWhile (fun c => !(c = '.' || isDigit c))
          let s4 := s3.drop u.length
          if u.length = 0 then .error .missingUnit
          else
            match unitMap u with
            | none => .error (.unknownUnit u)
            | some unit =>
              if v > 2 ^ 63 / unit then .error .invalid
              else
                let v1 := v * unit
                let v2 :=
                  if f > 0 then
                    v1 + (F64.trunc (F64.mul (F64.ofInt f)
                      (F64.div (F64.ofInt unit) scale))).toNat
                  else v1
                if f > 0 ∧ v2 > 2 ^ 63 then .error .invalid
                else
                  let d1 := (d + v2) % 2 ^ 64
                  if d1 > 2 ^ 63 then .error .invalid
                  else .ok (d1, s4)

/-- The loop `for s != ""` of `time.ParseDuration`.  Every round consumes at
least the unit, so `s.length` rounds of `fuel` are enough (`parseGroups_fuel`). -/
def parseGroups : Nat → Nat → Str → Res DurationError Nat
  | _, d, [] => .ok d
  | 0, _, _ :: _ => .error .invalid
  | fuel + 1, d, c :: cs =>
    match parseGroup d (c :: cs) with
    | .error e => .error e
    | .ok (d1, rest) => parseGroups fuel d1 rest

/-- The function `time.ParseDuration`, giving nanoseconds. -/
def ParseDuration (s : Str) : Res DurationError Int :=
  let neg := decide (s.head? = some '-')
  let s1 := if s.head? = some '-' ∨ s.head? = some '+' then s.drop 1 else s
  if s1 = ['0'] then .ok 0
  else if s1 = [] then .error .invalid
  else
    match parseGroups s1.length 0 s1 with
    | .error e => .error e
    | .ok d =>
      if neg then .ok (-(d : Int))
      else if d > 2 ^ 63 - 1 then .error .invalid
      else .ok (d : Int)

/-! ## packages `strings`, `bufio`, `sort`, `strconv`, `path/filepath` -/

/-- The call `strings.Split(s, sep)` for a separator of one character. -/
def stringsSplit (sep : Char) : Str → List Str
  | [] => [[]]
  | c :: cs =>
    if c = sep then [] :: stringsSplit sep cs
    else
      match stringsSplit sep cs with
      | [] => [[c]]
      | f :: fs => (c :: f) :: fs

/-- The call `strings.Index(s, sep)` for a separator of one character: the
index of its first occurrence, `-1` when there is none. -/
def stringsIndex (sep : Char) : Str → Int
  | [] => -1
  | c :: cs =>
    if c = sep then 0
    else if stringsIndex sep cs < 0 then -1
    else stringsIndex sep cs + 1

/-- The slice expression `s[0:i]`; `none` is the run-time panic
"slice bounds out of range". -/
def sliceTo (s : Str) (i : Int) : Option Str :=
  if 0 ≤ i ∧ i ≤ (s.length : Int) then some (s.take i.toNat) else none

/-- The helper `dropCR` of package `bufio`. -/
def dropCR (s : Str) : Str :=
  if s.getLast? = some '\r' then s.dropLast else s

/-- The tokens a `bufio.Scanner` with the default split function `ScanLines`
yields over `data`: the newline terminated lines and a last unterminated
non-empty one, each without its trailing carriage return.  Lines are taken
to fit the scanner's token buffer. -/
def scanLines (data : Str) : List Str :=
  let parts := stringsSplit '\n' data
  (if parts.getLast? = some [] then parts.dropLast else parts).map dropCR

/-- Go's string comparison `a <= b`: lexicographic. -/
def strLe : Str → Str → Bool
  | [], _ => true
  | _ :: _, [] => false
  | a :: as, b :: bs =>
    if a < b then true
    else if a = b then strLe as bs
    else false

/-- Insertion of a string into an increasing list. -/
def insertSorted (x : Str) : List Str → List Str
  | [] => [x]
  | y :: ys => if strLe x y then x :: y :: ys else y :: insertSorted x ys

/-- The call `sort.Strings(pl)`: `pl` in increasing order. -/
def sortStrings (pl : List Str) : List Str :=
  pl.foldr insertSorted []

/-- The call `strconv.FormatInt(i, 10)`. -/
def FormatInt (i : Int) : Str :=
  if i < 0 then '-' :: Nat.toDigits 10 i.natAbs else Nat.toDigits 10 i.toNat

/-- The second result of `filepath.Split(path)`, where the path separator is the
slash: what follows the last slash. -/
def filepathSplitFile (path : Str) : Str :=
  (path.reverse.takeWhile (fun c => c ≠ '/')).reverse

/-! ## the program's data -/

/-- The struct `Movie`; `end_` is the field `end`. -/
structure Movie where
  vid : Str
  start : Int
  end_ : Int
  udemae_start : Str
  udemae_end : Str
  deriving DecidableEq, Repr

/-- A Go `map[string]Movie`: at most one entry for a key. -/
abbrev Manifest := List (Str × Movie)

/-- The lookup `m, ok := mm[k]`. -/
def Manifest.get : Manifest → Str → Option Movie
  | [], _ => none
  | (k1, m) :: rest, k => if k1 = k then some m else Manifest.get rest k

/-- The assignment `mm[k] = m`. -/
def Manifest.set (mm : Manifest) (k : Str) (m : Movie) : Manifest :=
  (k, m) :: mm.filter (fun e => e.1 ≠ k)

/-- The errors the program returns, one constructor for each message. -/
inductive Err where
  | openSplitFile (sp : Str)
  | parseStart (vid : Str) (cause : DurationError)
  | parseEnd (vid : Str) (cause : DurationError)
  | zeroEnd (vid : Str)
  | glob
  | split (cause : Str)
  | tempFile
  | write
  | combine (cause : Str)
  deriving DecidableEq, Repr

/-- The result of a Go function returning `(value, error)` that may also panic. -/
inductive Outcome (α : Type) where
  | ok (a : α)
  | error (e : Err)
  | panic
  deriving DecidableEq, Repr

/-- The file system: the paths that exist, each with its content. -/
structure World where
  files : List (Str × Str)
  deriving DecidableEq, Repr

/-- Content stored for `name` in a list of files. -/
def lookupFile : List (Str × Str) → Str → Option Str
  | [], _ => none
  | (n, c) :: rest, name => if n = name then some c else lookupFile rest name

/-- Content of the file at `name`, if it exists. -/
def World.read (w : World) (name : Str) : Option Str :=
  lookupFile w.files name

/-- Create `name` as an empty file. -/
def World.create (w : World) (name : Str) : World :=
  ⟨(name, []) :: w.files.filter (fun e => e.1 ≠ name)⟩

/-- Append `data` to the file at `name`. -/
def World.append (w : World) (name : Str) (data : Str) : World :=
  ⟨w.files.map (fun e => if e.1 = name then (e.1, e.2 ++ data) else e)⟩

/-- The call `os.Remove(name)`. -/
def World.remove (w : World) (name : Str) : World :=
  ⟨w.files.filter (fun e => e.1 ≠ name)⟩

/-- What the run observes of the outside: an existence check or a run of the
external transcoder with its arguments. -/
inductive Event where
  | stat (name : Str)
  | exec (args : List Str)
  deriving DecidableEq, Repr

/-- The state threaded through the program. -/
structure State where
  world : World
  trace : List Event
  deriving DecidableEq, Repr

/-- What the program does not decide itself: the path functions of the
platform, the directory listing, the external transcoder (its error, if any,
and what it does to the files), the name `ioutil.TempFile` picks (`none` when
it fails) and whether a write goes through. -/
structure Host where
  Join : Str → Str → Str
  Abs : Str → Str
  Glob : World → Str → Option (List Str)
  ffmpeg : World → List Str → Option Str × World
  TempFile : World → Str → Str → Option Str
  writeOk : World → Str → Str → Bool
  flushOk : World → Str → Bool

/-! ## the program -/

def SPLIT_FILE : Str := "split.txt".toList

/-- The body of the scanning loop of `readSplitFile` over the remaining lines. -/
def readLines (mm : Manifest) : List Str → Outcome Manifest
  | [] => .ok mm
  | line :: rest =>
    let cell := stringsSplit '\t' line
    if cell.length < 5 then .ok mm
    else
      let vid := cell.getD 0 []
      match ParseDuration (cell.getD 1 []) with
      | .error e => .error (.parseStart vid e)
      | .ok start =>
        match ParseDuration (cell.getD 2 []) with
        | .error e => .error (.parseEnd vid e)
        | .ok end_ =>
          let m : Movie := ⟨vid, start, end_, cell.getD 3 [], cell.getD 4 []⟩
          if m.end_ = 0 then .error (.zeroEnd m.vid)
          else readLines (mm.set m.vid m) rest

/-- The function `readSplitFile`. -/
def readSplitFile (w : World) (sp : Str) : Outcome Manifest :=
  match w.read sp with
  | none => .error (.openSplitFile sp)
  | some data => readLines [] (scanLines data)

/-- The function `isExist`. -/
def isExist (s : State) (filename : Str) : Bool × State :=
  ((s.world.read filename).isSome, ⟨s.world, s.trace ++ [.stat filename]⟩)

/-- The argument list built by `Movie.ffmpegSplit`. -/
def ffmpegSplitArgs (m : Movie) (src dst : Str) : List Str :=
  ["-y".toList,
   "-ss".toList, FormatInt (F64.trunc (Seconds m.start)),
   "-i".toList, src,
   "-t".toList, FormatInt (F64.trunc (F64.sub (Seconds m.end_) (Seconds m.start))),
   "-c:v".toList, "copy".toList,
   "-c:a".toList, "copy".toList,
   dst]

/-- The method `Movie.ffmpegSplit`: the error of the run, if any. -/
def Movie.ffmpegSplit (h : Host) (m : Movie) (src dst : Str) (s : State) :
    Option Str × State :=
  let args := ffmpegSplitArgs m src dst
  let r := h.ffmpeg s.world args
  (r.1, ⟨r.2, s.trace ++ [.exec args]⟩)

def clipSuffix : Str := "_movie-splitcat.mp4".toList

/-- The loop `for _, p := range pl` of `splitMovies`, `ml` being the list built
so far. -/
def splitLoop (h : Host) (tmp : Str) (mm : Manifest) :
    List Str → List Str → State → Outcome (List Str) × State
  | [], ml, s => (.ok ml, s)
  | p :: ps, ml, s =>
    let file := filepathSplitFile p
    let i := stringsIndex '_' file
    match sliceTo file i with
    | none => (.panic, s)
    | some vid =>
      match mm.get vid with
      | none => splitLoop h tmp mm ps ml s
      | some m =>
        let mp := h.Join tmp (m.vid ++ clipSuffix)
        let e := isExist s mp
        if e.1 = false then
          let r := m.ffmpegSplit h p mp e.2
          match r.1 with
          | some err => (.error (.split err), r.2)
          | none => splitLoop h tmp mm ps (ml ++ [mp]) r.2
        else splitLoop h tmp mm ps (ml ++ [mp]) e.2

/-- The function `splitMovies`. -/
def splitMovies (h : Host) (base tmp : Str) (mm : Manifest) (s : State) :
    Outcome (List Str) × State :=
  match h.Glob s.world (h.Join base "*.mp4".toList) with
  | none => (.error .glob, s)
  | some pl => splitLoop h tmp mm (sortStrings pl) [] s

/-- The line `createConcatFile` writes for the clip `it`. -/
def concatLine (h : Host) (it : Str) : Str :=
  "file ".toList ++ [Char.ofNat 39] ++ h.Abs it ++ [Char.ofNat 39, '\n']

/-- The writing loop of `createConcatFile` on the open file `name`. -/
def writeClips (h : Host) (name : Str) : List Str → World → Outcome Str × World
  | [], w =>
    if h.flushOk w name then (.ok name, w) else (.error .write, w.remove name)
  | it :: rest, w =>
    if h.writeOk w name (concatLine h it) then
      writeClips h name rest (w.append name (concatLine h it))
    else (.error .write, w.remove name)

/-- The function `createConcatFile`. -/
def createConcatFile (h : Host) (base : Str) (ml : List Str) (s : State) :
    Outcome Str × State :=
  match h.TempFile s.world base "_concat_".toList with
  | none => (.error .tempFile, s)
  | some name =>
    let r := writeClips h name ml (s.world.create name)
    (r.1, ⟨r.2, s.trace⟩)

/-- The argument list built by `ffmpegCombine`. -/
def ffmpegCombineArgs (cp : Str) : List Str :=
  ["-y".toList, "-f".toList, "concat".toList, "-safe".toList, "0".toList,
   "-i".toList, cp, "-threads".toList, "12".toList, "-preset".toList,
   "veryfast".toList, "-crf".toList, "22".toList, "-c:v".toList,
   "libx264".toList, "-c:a".toList, "aac".toList, "-b:a".toList,
   "128k".toList, "-r".toList, "30".toList, "-s".toList, "1280x720".toList,
   "-vsync".toList, "1".toList, "-deinterlace".toList, "-pix_fmt".toList,
   "yuv420p".toList, "-bufsize".toList, "20000k".toList, "-maxrate".toList,
   "2000k".toList, "output.mkv".toList]

/-- The function `ffmpegCombine`: its error, if any. -/
def ffmpegCombine (h : Host) (cp : Str) (s : State) : Option Err × State :=
  let args := ffmpegCombineArgs cp
  let r := h.ffmpeg s.world args
  (r.1.map Err.combine, ⟨r.2, s.trace ++ [.exec args]⟩)

/-- A call registered by a `defer` statement of `main`. -/
inductive Deferred where
  | Remove (name : Str)
  deriving DecidableEq, Repr

/-- How `main` stops: `os.Exit(code)`, falling off its end, or a panic. -/
inductive Ending where
  | exit (code : Nat)
  | returned
  | panicked
  deriving DecidableEq, Repr

/-- The function `main` on the command line `args` (`os.Args`): how it stops,
the state then, and the deferred calls registered and not yet run. -/
def main (h : Host) (args : List Str) (s : State) : Ending × State × List Deferred :=
  let sp := if args.length ≥ 2 then args.getD 1 [] else h.Join ".".toList SPLIT_FILE
  let base := if args.length ≥ 3 then args.getD 2 [] else ".".toList
  let tmp := if args.length ≥ 4 then args.getD 3 [] else ".".toList
  match readSplitFile s.world sp with
  | .panic => (.panicked, s, [])
  | .error _ => (.exit 1, s, [])
  | .ok mm =>
    match splitMovies h base tmp mm s with
    | (.panic, s1) => (.panicked, s1, [])
    | (.error _, s1) => (.exit 1, s1, [])
    | (.ok ml, s1) =>
      match createConcatFile h tmp ml s1 with
      | (.panic, s2) => (.panicked, s2, [])
      | (.error _, s2) => (.exit 1, s2, [])
      | (.ok cp, s2) =>
        match ffmpegCombine h cp s2 with
        | (some _, s3) => (.exit 1, s3, [.Remove cp])
        | (none, s3) => (.exit 0, s3, [.Remove cp])

/-- Run the pending deferred calls, last registered first. -/
def runDeferred : List Deferred → World → World
  | [], w => w
  | .Remove name :: ds, w => runDeferred ds (w.remove name)

/-- The end of the process: its exit status and the files it leaves.  After
`os.Exit` the program terminates at once and deferred calls are not run; they
run when `main` returns or panics. -/
def runProcess (h : Host) (args : List Str) (s : State) : Nat × World :=
  match main h args s with
  | (.exit code, s1, _) => (code, s1.world)
  | (.returned, s1, ds) => (0, runDeferred ds.reverse s1.world)
  | (.panicked, s1, ds) => (2, runDeferred ds.reverse s1.world)

/-! ## a small host for concrete runs -/

/-- A host for concrete runs: it lists `sources`, joins with a slash, puts
paths under `/work`, names the temporary file `<dir>/<pattern>1`, never fails
to write, and its transcoder fails on the argument lists `fails` selects and
otherwise creates its output, the last argument. -/
def demoHost (sources : List Str) (fails : List Str → Bool) : Host where
  Join := fun a b => a ++ ['/'] ++ b
  Abs := fun p => "/work/".toList ++ p
  Glob := fun _ _ => some sources
  ffmpeg := fun w args =>
    if fails args then (some "exit status 1".toList, w)
    else (none, w.create (args.getLastD []))
  TempFile := fun _ dir pattern => some (dir ++ ['/'] ++ pattern ++ ['1'])
  writeOk := fun _ _ _ => true
  flushOk := fun _ _ => true

/-- A world holding the manifest `split.txt` with the one line
`A<tab>10s<tab>70s<tab>x<tab>y`. -/
def demoWorld : World :=
  ⟨[("split.txt".toList, "A\t10s\t70s\tx\ty\n".toList)]⟩

/-- The command line `movie-splitcat split.txt src tmp`. -/
def demoArgs : List Str :=
  ["movie-splitcat".toList, "split.txt".toList, "src".toList, "tmp".toList]


/-! ## reference definitions, following the specification -/

/-- Reference: the Segment Descriptor a manifest line stands for, when the line
has at least 5 tab separated fields, fields 1 and 2 parse as durations and the
end offset is not zero. -/
def entryOf (line : Str) : Option Movie :=
  let cell := stringsSplit '\t' line
  if 5 ≤ cell.length then
    match ParseDuration (cell.getD 1 []), ParseDuration (cell.getD 2 []) with
    | .ok start, .ok end_ =>
      if end_ = 0 then none
      else some ⟨cell.getD 0 [], start, end_, cell.getD 3 [], cell.getD 4 []⟩
    | _, _ => none
  else none

/-- Reference: the Manifest built from a sequence of Segment Descriptors, a
later one replacing an earlier one of the same identifier. -/
def manifestOf (ms : List Movie) : Manifest :=
  ms.foldl (fun mm m => mm.set m.vid m) []

/-- Reference: the lines of a manifest before the first line with fewer than 5
fields. -/
def entryLines (lines : List Str) : List Str :=
  lines.takeWhile (fun l => decide (5 ≤ (stringsSplit '\t' l).length))

/-- Reference: the lines before the first short line whose field 0 is `k`. -/
def linesOf (k : Str) (lines : List Str) : List Str :=
  (entryLines lines).filter (fun l => (stringsSplit '\t' l).getD 0 [] = k)

/-- A manifest naming `A` on its first and third line. -/
def demoDuplicates : Str :=
  "A\t1s\t2s\tp\tq\nB\t1s\t5s\tx\ty\nA\t3s\t4s\tr\ts\n".toList

/-- Reference: the identifier of a source path, the part of its basename before
the first underscore. -/
def identifier (p : Str) : Str :=
  (filepathSplitFile p).takeWhile (fun c => c ≠ '_')

/-- Reference: the output path of a source path, when its identifier has a
Manifest entry. -/
def clipOf (h : Host) (tmp : Str) (mm : Manifest) (p : Str) : Option Str :=
  (mm.get (identifier p)).map (fun m => h.Join tmp (m.vid ++ clipSuffix))

/-- Reference: the Clip List, the sorted source paths whose identifier is a key
of the Manifest, each mapped to `<tmp>/<identifier>_movie-splitcat.mp4`. -/
def clipList (h : Host) (tmp : Str) (mm : Manifest) (pl : List Str) : List Str :=
  ((sortStrings pl).filter (fun p => (mm.get (identifier p)).isSome)).map
    (fun p => h.Join tmp (identifier p ++ clipSuffix))

/-- A manifest with an entry for `B`, then one for `A`. -/
def demoManifestBA : Str :=
  "B\t0s\t30s\tx\ty\nA\t10s\t70s\tx\ty\n".toList

/-- The manifest `demoManifestBA` with its two lines swapped. -/
def demoManifestAB : Str :=
  "A\t10s\t70s\tx\ty\nB\t0s\t30s\tx\ty\n".toList

/-- The Manifest read from `demoManifestBA`. -/
def demoManifest : Manifest :=
  manifestOf [⟨"B".toList, 0, 30000000000, "x".toList, "y".toList⟩,
    ⟨"A".toList, 10000000000, 70000000000, "x".toList, "y".toList⟩]

/-- Source files: two for `A`, one for `B`, one for `C`, which has no entry. -/
def demoSources : List Str :=
  ["src/B_y.mp4".toList, "src/C_w.mp4".toList, "src/A_z.mp4".toList, "src/A_x.mp4".toList]

/-- Reference: the text `file '<abs(p)>'` of the concat list for the clip `p`,
without the newline that ends it. -/
def concatEntry (h : Host) (p : Str) : Str :=
  "file ".toList ++ [Char.ofNat 39] ++ h.Abs p ++ [Char.ofNat 39]

/-- Reference: the content of the concat list for a Clip List, one line
`file '<abs(p)>'` and a newline for each clip, in order. -/
def concatContent (h : Host) (ml : List Str) : Str :=
  (ml.map (fun p => concatEntry h p ++ ['\n'])).flatten

/-! ## claims settled by running the program -/

/-- C7: at the claim's own sub-second example, start = 900ms and end = 1.9s
(the Movie read from the line `A<tab>900ms<tab>1.9s<tab>x<tab>y`), the
transcoder is run with `-t 0`: the float difference of the two second counts
is just below one and truncates to 0, while the duration end − start is exactly
one second, whose rendering is `1`.  At start = 10s, end = 70s the arguments
are `-ss 10` and `-t 60`, as the claim says. -/
theorem ffmpegSplit_subsecond_duration :
    readLines [] ["A\t900ms\t1.9s\tx\ty".toList]
        = .ok [("A".toList, ⟨"A".toList, 900000000, 1900000000, "x".toList, "y".toList⟩)]
      ∧ ((Movie.ffmpegSplit (demoHost [] (fun _ => false))
            ⟨"A".toList, 900000000, 1900000000, "x".toList, "y".toList⟩
            "src/A_x.mp4".toList "tmp/A_movie-splitcat.mp4".toList ⟨⟨[]⟩, []⟩).2.trace
          = [.exec ["-y".toList, "-ss".toList, "0".toList, "-i".toList,
              "src/A_x.mp4".toList, "-t".toList, "0".toList, "-c:v".toList,
              "copy".toList, "-c:a".toList, "copy".toList,
              "tmp/A_movie-splitcat.mp4".toList]])
      ∧ FormatInt (Int.tdiv (1900000000 - 900000000) Second) = "1".toList
      ∧ ffmpegSplitArgs ⟨"A".toList, 10000000000, 70000000000, "x".toList, "y".toList⟩
          "src/A_x.mp4".toList "tmp/A_movie-splitcat.mp4".toList
        = ["-y".toList, "-ss".toList, "10".toList, "-i".toList, "src/A_x.mp4".toList,
            "-t".toList, "60".toList, "-c:v".toList, "copy".toList, "-c:a".toList,
            "copy".toList, "tmp/A_movie-splitcat.mp4".toList] := by
  decide

/-- C10: with the single source file `src/video.mp4`, whose basename has no
underscore, `strings.Index` gives -1, the slice `file[0:-1]` is out of range
and `splitMovies` panics, whatever the manifest and the temp directory. -/
theorem splitMovies_panics_without_underscore (tmp : Str) (mm : Manifest) (s : State) :
    stringsIndex '_' (filepathSplitFile "src/video.mp4".toList) = -1
      ∧ splitMovies (demoHost ["src/video.mp4".toList] (fun _ => false))
          "src".toList tmp mm s = (.panic, s) := by
  refine ⟨by decide, ?_⟩
  have h1 : sortStrings ["src/video.mp4".toList] = ["src/video.mp4".toList] := by decide
  have h2 : sliceTo (filepathSplitFile "src/video.mp4".toList)
      (stringsIndex '_' (filepathSplitFile "src/video.mp4".toList)) = none := by decide
  simp only [splitMovies, demoHost, h1, splitLoop, h2]

/-- C3: in the run `movie-splitcat split.txt src tmp` the concat list
`tmp/_concat_1` is created and `defer os.Remove(cp)` is registered, but both
ways out of `main` are `os.Exit`, so the deferred call never runs: the file
still exists when the process ends, with exit status 0 when the merge succeeds
and with exit status 1 when it fails. -/
theorem concat_file_left_behind :
    (main (demoHost ["src/A_x.mp4".toList] (fun _ => false)) demoArgs ⟨demoWorld, []⟩).2.2
        = [.Remove "tmp/_concat_1".toList]
      ∧ (runProcess (demoHost ["src/A_x.mp4".toList] (fun _ => false)) demoArgs
          ⟨demoWorld, []⟩).1 = 0
      ∧ ((runProcess (demoHost ["src/A_x.mp4".toList] (fun _ => false)) demoArgs
          ⟨demoWorld, []⟩).2.read "tmp/_concat_1".toList).isSome = true
      ∧ (runProcess (demoHost ["src/A_x.mp4".toList]
          (fun a => a.contains "concat".toList)) demoArgs ⟨demoWorld, []⟩).1 = 1
      ∧ ((runProcess (demoHost ["src/A_x.mp4".toList]
          (fun a => a.contains "concat".toList)) demoArgs
          ⟨demoWorld, []⟩).2.read "tmp/_concat_1".toList).isSome = true := by
  decide

/-- C2, as stated, fails: on the line `A<tab>x<tab>0s<tab>B<tab>C` the end
offset is `0s`, but the start offset `x` is parsed first and `readSplitFile`
fails with the start parse error, not with the zero-end validation error. -/
theorem zero_end_not_for_every_start :
    stringsSplit '\t' "A\tx\t0s\tB\tC".toList
        = ["A".toList, "x".toList, "0s".toList, "B".toList, "C".toList]
      ∧ readSplitFile ⟨[("split.txt".toList, "A\tx\t0s\tB\tC\n".toList)]⟩
          "split.txt".toList = .error (.parseStart "A".toList .invalid)
      ∧ readSplitFile ⟨[("split.txt".toList, "A\tx\t0s\tB\tC\n".toList)]⟩
          "split.txt".toList ≠ .error (.zeroEnd "A".toList) := by
  decide

/-! ## the binary logarithm used for rounding -/

theorem log2Fuel_spec :
    ∀ (fuel n : Nat), 0 < n → n ≤ fuel →
      2 ^ log2Fuel fuel n ≤ n ∧ n < 2 ^ (log2Fuel fuel n + 1) := by
  intro fuel
  induction fuel with
  | zero => intro n h0 h1; omega
  | succ f ih =>
    intro n h0 h1
    unfold log2Fuel
    by_cases h2 : n < 2
    · simp only [h2, if_true]
      constructor
      · simpa using h0
      · simpa using h2
    · simp only [h2, if_false]
      obtain ⟨ha, hb⟩ := ih (n / 2) (by omega) (by omega)
      rw [Nat.pow_succ, Nat.pow_succ]
      rw [Nat.pow_succ] at hb
      constructor <;> omega

/-- For a positive `n`, `log2 n` is the position of its highest set bit. -/
theorem log2_spec (n : Nat) (h : 0 < n) : 2 ^ log2 n ≤ n ∧ n < 2 ^ (log2 n + 1) :=
  log2Fuel_spec n n h (Nat.le_refl n)

/-! ## the model of `time.ParseDuration` never runs out of fuel -/

theorem leadingInt_length :
    ∀ (s : Str) (x v : Nat) (rest : Str), leadingInt x s = some (v, rest) →
      rest.length ≤ s.length := by
  intro s
  induction s with
  | nil =>
    intro x v rest h
    simp only [leadingInt, Option.some.injEq, Prod.mk.injEq] at h
    rw [← h.2]
  | cons c cs ih =>
    intro x v rest h
    unfold leadingInt at h
    split at h
    · simp only [Option.some.injEq, Prod.mk.injEq] at h
      rw [← h.2]
    · split at h
      · exact absurd h (by simp)
      · simp only at h
        split at h
        · exact absurd h (by simp)
        · exact Nat.le_succ_of_le (ih _ _ _ h)

theorem leadingFraction_length :
    ∀ (s : Str) (x : Nat) (scale : F64) (o : Bool),
      (leadingFraction x scale o s).2.2.length ≤ s.length := by
  intro s
  induction s with
  | nil => intro x scale o; simp [leadingFraction]
  | cons c cs ih =>
    intro x scale o
    unfold leadingFraction
    split
    · exact Nat.le_refl _
    · split
      · exact Nat.le_succ_of_le (ih _ _ _)
      · split
        · exact Nat.le_succ_of_le (ih _ _ _)
        · simp only
          split
          · exact Nat.le_succ_of_le (ih _ _ _)
          · exact Nat.le_succ_of_le (ih _ _ _)

theorem fractionPart_length (s1 : Str) : (fractionPart s1).2.2.1.length ≤ s1.length := by
  unfold fractionPart
  split
  · exact Nat.le_succ_of_le (leadingFraction_length _ _ _ _)
  · exact Nat.le_refl _

theorem parseGroup_shorter (d : Nat) (s : Str) (d1 : Nat) (rest : Str)
    (h : parseGroup d s = .ok (d1, rest)) : rest.length < s.length := by
  cases s with
  | nil => simp [parseGroup] at h
  | cons c cs =>
    rw [parseGroup] at h
    split at h
    · exact absurd h (by simp)
    · split at h
      · exact absurd h (by simp)
      · rename_i v s1 hint
        have hs1 := leadingInt_length _ _ _ _ hint
        have hs3 := fractionPart_length s1
        simp only at h
        generalize fractionPart s1 = fr at h hs3
        split at h
        · exact absurd h (by simp)
        · split at h
          · exact absurd h (by simp)
          · rename_i hu
            have key : (List.drop
                (List.takeWhile (fun c => !(decide (c = '.') || isDigit c)) fr.2.2.1).length
                fr.2.2.1).length < (c :: cs).length := by
              have hle : (List.takeWhile (fun c => !(decide (c = '.') || isDigit c))
                  fr.2.2.1).length ≤ fr.2.2.1.length :=
                (List.takeWhile_sublist _).length_le
              rw [List.length_drop]
              simp only [List.length_cons] at hs1 ⊢
              omega
            repeat' split at h
            all_goals first
              | (simp only [Res.ok.injEq, Prod.mk.injEq] at h
                 rw [← h.2]
                 exact key)
              | exact absurd h (by simp)

theorem parseGroups_nil (fuel d : Nat) : parseGroups fuel d [] = .ok d := by
  cases fuel <;> rfl

/-- Fuel beyond the length of the text changes nothing: the loop of
`time.ParseDuration` ends before the fuel does. -/
theorem parseGroups_fuel :
    ∀ (fuel d : Nat) (s : Str), s.length ≤ fuel →
      ∀ k, parseGroups (fuel + k) d s = parseGroups fuel d s := by
  intro fuel
  induction fuel with
  | zero =>
    intro d s hs k
    have : s = [] := List.length_eq_zero.mp (Nat.le_zero.mp hs)
    subst this
    rw [parseGroups_nil, parseGroups_nil]
  | succ n ih =>
    intro d s hs k
    cases s with
    | nil => rw [parseGroups_nil, parseGroups_nil]
    | cons c cs =>
      have e : n + 1 + k = (n + k) + 1 := by omega
      rw [e]
      simp only [parseGroups]
      cases hg : parseGroup d (c :: cs) with
      | error e => rfl
      | ok r =>
        obtain ⟨d1, rest⟩ := r
        have hlt := parseGroup_shorter d (c :: cs) d1 rest hg
        simp only
        exact ih d1 rest (by simp only [List.length_cons] at hs hlt; omega) k

/-! ## the manifest reader -/

theorem readLines_entry (mm : Manifest) (line : Str) (rest : List Str) (m : Movie)
    (h : entryOf line = some m) :
    readLines mm (line :: rest) = readLines (mm.set m.vid m) rest := by
  unfold entryOf at h
  simp only at h
  split at h
  · rename_i h5
    rw [readLines]
    simp only [Nat.not_lt.mpr h5, if_false]
    split at h
    · rename_i st en hst hen
      rw [hst, hen]
      simp only
      split at h
      · exact absurd h (by simp)
      · rename_i hz
        simp only [hz, if_false]
        injection h with h
        rw [← h]
    · exact absurd h (by simp)
  · exact absurd h (by simp)

theorem readLines_short (mm : Manifest) (line : Str) (rest : List Str)
    (h : (stringsSplit '\t' line).length < 5) :
    readLines mm (line :: rest) = .ok mm := by
  rw [readLines]
  simp only [h, if_true]

theorem readLines_entries (ms : List Movie) :
    ∀ (pre : List Str) (mm : Manifest) (rest : List Str),
      pre.map entryOf = ms.map some →
      readLines mm (pre ++ rest) = readLines (ms.foldl (fun mm m => mm.set m.vid m) mm) rest := by
  induction ms with
  | nil =>
    intro pre mm rest h
    cases pre with
    | nil => rfl
    | cons a as => simp at h
  | cons m ms ih =>
    intro pre mm rest h
    cases pre with
    | nil => simp at h
    | cons a as =>
      simp only [List.map_cons, List.cons.injEq] at h
      rw [List.cons_append, readLines_entry mm a (as ++ rest) m h.1, ih as _ rest h.2]
      rfl

/-- C1: when the lines 1..K-1 of the manifest each stand for an entry (at least
5 fields, processed without error) and line K has fewer than 5 fields,
`readSplitFile` succeeds with exactly the Manifest built from lines 1..K-1,
whatever the lines after K are. -/
theorem readSplitFile_stops_at_short_line (w : World) (sp data : Str)
    (pre : List Str) (short : Str) (post : List Str) (ms : List Movie)
    (hread : w.read sp = some data)
    (hlines : scanLines data = pre ++ short :: post)
    (hpre : pre.map entryOf = ms.map some)
    (hshort : (stringsSplit '\t' short).length < 5) :
    readSplitFile w sp = .ok (manifestOf ms) := by
  unfold readSplitFile
  rw [hread]
  simp only
  rw [hlines, readLines_entries ms pre [] (short :: post) hpre, readLines_short _ _ _ hshort]
  rfl

/-- C1 at a concrete manifest: two entries, an empty line, then a line with a
malformed duration and a line with a zero end offset. -/
theorem readSplitFile_stops_at_short_line_witness :
    readSplitFile
        ⟨[("split.txt".toList,
            "A\t10s\t70s\tx\ty\nB\t0s\t30s\tx\ty\n\nC\tbad\t1s\tx\ty\nD\t1s\t0s\tx\ty\n".toList)]⟩
        "split.txt".toList
      = .ok (manifestOf [⟨"A".toList, 10000000000, 70000000000, "x".toList, "y".toList⟩,
          ⟨"B".toList, 0, 30000000000, "x".toList, "y".toList⟩]) :=
  readSplitFile_stops_at_short_line
    ⟨[("split.txt".toList,
        "A\t10s\t70s\tx\ty\nB\t0s\t30s\tx\ty\n\nC\tbad\t1s\tx\ty\nD\t1s\t0s\tx\ty\n".toList)]⟩
    "split.txt".toList
    "A\t10s\t70s\tx\ty\nB\t0s\t30s\tx\ty\n\nC\tbad\t1s\tx\ty\nD\t1s\t0s\tx\ty\n".toList
    ["A\t10s\t70s\tx\ty".toList, "B\t0s\t30s\tx\ty".toList] []
    ["C\tbad\t1s\tx\ty".toList, "D\t1s\t0s\tx\ty".toList]
    [⟨"A".toList, 10000000000, 70000000000, "x".toList, "y".toList⟩,
      ⟨"B".toList, 0, 30000000000, "x".toList, "y".toList⟩]
    (by decide) (by decide) (by decide) (by decide)

/-- C2, amended: when the lines before it each stand for an entry, a line with
at least 5 fields whose start offset parses and whose end offset field is `0s`
makes `readSplitFile` fail with the zero-end validation error naming the
line's identifier, for every identifier and every two labels. -/
theorem readSplitFile_zero_end (w : World) (sp data : Str)
    (pre : List Str) (line : Str) (post : List Str) (ms : List Movie) (start : Int)
    (hread : w.read sp = some data)
    (hlines : scanLines data = pre ++ line :: post)
    (hpre : pre.map entryOf = ms.map some)
    (hfields : 5 ≤ (stringsSplit '\t' line).length)
    (hstart : ParseDuration ((stringsSplit '\t' line).getD 1 []) = .ok start)
    (hend : (stringsSplit '\t' line).getD 2 [] = "0s".toList) :
    readSplitFile w sp = .error (.zeroEnd ((stringsSplit '\t' line).getD 0 [])) := by
  have hz : ParseDuration "0s".toList = .ok 0 := by decide
  unfold readSplitFile
  rw [hread]
  simp only
  rw [hlines, readLines_entries ms pre [] (line :: post) hpre, readLines]
  simp only [Nat.not_lt.mpr hfields, if_false, hstart, hend, hz, if_true]

/-- C2, amended, at a concrete manifest: the second line has end offset `0s`. -/
theorem readSplitFile_zero_end_witness :
    readSplitFile
        ⟨[("split.txt".toList, "A\t10s\t70s\tx\ty\nB\t5s\t0s\tp\tq\n".toList)]⟩
        "split.txt".toList
      = .error (.zeroEnd (((stringsSplit '\t' "B\t5s\t0s\tp\tq".toList)).getD 0 [])) :=
  readSplitFile_zero_end
    ⟨[("split.txt".toList, "A\t10s\t70s\tx\ty\nB\t5s\t0s\tp\tq\n".toList)]⟩
    "split.txt".toList "A\t10s\t70s\tx\ty\nB\t5s\t0s\tp\tq\n".toList
    ["A\t10s\t70s\tx\ty".toList] "B\t5s\t0s\tp\tq".toList []
    [⟨"A".toList, 10000000000, 70000000000, "x".toList, "y".toList⟩] 5000000000
    (by decide) (by decide) (by decide) (by decide) (by decide) (by decide)

/-! ## the Manifest as a map -/

theorem Manifest.get_filter_ne (k k1 : Str) :
    ∀ mm : Manifest, Manifest.get (mm.filter (fun e => e.1 ≠ k)) k1
      = if k = k1 then none else Manifest.get mm k1 := by
  intro mm
  induction mm with
  | nil => simp [Manifest.get]
  | cons e mm ih =>
    obtain ⟨a, b⟩ := e
    rw [List.filter_cons]
    by_cases ha : a = k
    · have hd : decide ((a, b).1 ≠ k) = false := by simp [ha]
      rw [hd]
      simp only [Bool.false_eq_true, if_false]
      rw [ih, Manifest.get]
      subst ha
      by_cases hk : a = k1 <;> simp [hk]
    · have hd : decide ((a, b).1 ≠ k) = true := by simp [ha]
      rw [hd]
      simp only [if_true]
      rw [Manifest.get, ih, Manifest.get]
      by_cases hk : a = k1
      · subst hk
        have hne : ¬ k = a := fun h => ha h.symm
        simp [hne]
      · simp [hk]

theorem Manifest.get_set (mm : Manifest) (k k1 : Str) (m : Movie) :
    Manifest.get (mm.set k m) k1 = if k = k1 then some m else Manifest.get mm k1 := by
  unfold Manifest.set
  rw [Manifest.get, Manifest.get_filter_ne]
  by_cases hk : k = k1 <;> simp [hk]

theorem Manifest.count_set (mm : Manifest) (k k1 : Str) (m : Movie) :
    ((mm.set k m).filter (fun e => e.1 = k1)).length
      = if k = k1 then 1 else (mm.filter (fun e => e.1 = k1)).length := by
  unfold Manifest.set
  rw [List.filter_cons]
  by_cases hk : k = k1
  · subst hk
    have h0 : (mm.filter (fun e => e.1 ≠ k)).filter (fun e => e.1 = k) = [] := by
      rw [List.filter_filter, List.filter_eq_nil_iff]
      intro e _
      by_cases he : e.1 = k <;> simp [he]
    rw [h0]
    simp
  · have h1 : (mm.filter (fun e => e.1 ≠ k)).filter (fun e => e.1 = k1)
        = mm.filter (fun e => e.1 = k1) := by
      rw [List.filter_filter]
      apply List.filter_congr
      intro e _
      by_cases he : e.1 = k1
      · have hne : ¬ k1 = k := fun h => hk h.symm
        simp [he, hne]
      · simp [he]
    rw [h1]
    simp [hk]

theorem manifestOf_snoc (ms : List Movie) (m : Movie) :
    manifestOf (ms ++ [m]) = (manifestOf ms).set m.vid m := by
  simp [manifestOf, List.foldl_append]

theorem manifestOf_get (k : Str) (ms : List Movie) :
    Manifest.get (manifestOf ms) k = (ms.filter (fun m => m.vid = k)).getLast? := by
  induction ms using List.reverseRecOn with
  | nil => simp [manifestOf, Manifest.get]
  | append_singleton ms m ih =>
    rw [manifestOf_snoc, Manifest.get_set, ih, List.filter_append]
    by_cases hk : m.vid = k
    · simp [List.filter_cons, hk]
    · simp [List.filter_cons, hk]

theorem manifestOf_count (k : Str) (ms : List Movie) :
    ((manifestOf ms).filter (fun e => e.1 = k)).length
      = if ms.filter (fun m => m.vid = k) = [] then 0 else 1 := by
  induction ms using List.reverseRecOn with
  | nil => simp [manifestOf]
  | append_singleton ms m ih =>
    rw [manifestOf_snoc, Manifest.count_set, ih, List.filter_append]
    by_cases hk : m.vid = k
    · simp [List.filter_cons, hk]
    · simp [List.filter_cons, hk]

/-- Every entry of a Manifest built from Segment Descriptors sits under its own
identifier. -/
theorem manifestOf_vid (ms : List Movie) (k : Str) (m : Movie)
    (h : Manifest.get (manifestOf ms) k = some m) : m.vid = k := by
  rw [manifestOf_get] at h
  have hm : m ∈ ms.filter (fun m => m.vid = k) := List.mem_of_getLast?_eq_some h
  simpa using (List.mem_filter.mp hm).2

theorem entryOf_vid (line : Str) (m : Movie) (h : entryOf line = some m) :
    m.vid = (stringsSplit '\t' line).getD 0 [] := by
  unfold entryOf at h
  simp only at h
  split at h
  · split at h
    · split at h
      · exact absurd h (by simp)
      · injection h with h
        rw [← h]
    · exact absurd h (by simp)
  · exact absurd h (by simp)

theorem entryOf_fields (line : Str) (m : Movie) (h : entryOf line = some m) :
    5 ≤ (stringsSplit '\t' line).length := by
  unfold entryOf at h
  simp only at h
  split at h
  · assumption
  · exact absurd h (by simp)

theorem readLines_not_entry (mm : Manifest) (line : Str) (rest : List Str)
    (h5 : 5 ≤ (stringsSplit '\t' line).length) (h : entryOf line = none) :
    ∃ e, readLines mm (line :: rest) = .error e := by
  unfold entryOf at h
  simp only [h5, if_true] at h
  rw [readLines]
  simp only [Nat.not_lt.mpr h5, if_false]
  cases hst : ParseDuration ((stringsSplit '\t' line).getD 1 []) with
  | error e => exact ⟨_, rfl⟩
  | ok st =>
    cases hen : ParseDuration ((stringsSplit '\t' line).getD 2 []) with
    | error e => exact ⟨_, rfl⟩
    | ok en =>
      rw [hst, hen] at h
      simp only at h
      by_cases hz : en = 0
      · simp only [hz, if_true]
        exact ⟨_, rfl⟩
      · simp [hz] at h

/-- A successful read went through entries only, up to the first short line. -/
theorem readLines_ok_entries :
    ∀ (ls : List Str) (mm mm1 : Manifest), readLines mm ls = .ok mm1 →
      ∃ ms : List Movie,
        (ls.takeWhile (fun l => decide (5 ≤ (stringsSplit '\t' l).length))).map entryOf
            = ms.map some
          ∧ mm1 = ms.foldl (fun mm m => mm.set m.vid m) mm := by
  intro ls
  induction ls with
  | nil =>
    intro mm mm1 h
    refine ⟨[], rfl, ?_⟩
    simp only [readLines] at h
    injection h with h
    exact h.symm
  | cons l ls ih =>
    intro mm mm1 h
    by_cases h5 : 5 ≤ (stringsSplit '\t' l).length
    · cases he : entryOf l with
      | none =>
        obtain ⟨e, hx⟩ := readLines_not_entry mm l ls h5 he
        rw [hx] at h
        exact absurd h (by simp)
      | some m =>
        rw [readLines_entry mm l ls m he] at h
        obtain ⟨ms, h1, h2⟩ := ih _ _ h
        refine ⟨m :: ms, ?_, ?_⟩
        · rw [List.takeWhile_cons]
          simp only [h5, decide_True, if_true, List.map_cons, he, h1]
        · rw [h2]
          rfl
    · rw [readLines_short mm l ls (Nat.lt_of_not_le h5)] at h
      injection h with h
      refine ⟨[], ?_, h.symm⟩
      rw [List.takeWhile_cons]
      simp [h5]

theorem entries_filter (k : Str) (ms : List Movie) :
    ∀ ls : List Str, ls.map entryOf = ms.map some →
      (ls.filter (fun l => (stringsSplit '\t' l).getD 0 [] = k)).map entryOf
        = (ms.filter (fun m => m.vid = k)).map some := by
  induction ms with
  | nil =>
    intro ls h
    cases ls with
    | nil => rfl
    | cons a as => simp at h
  | cons m ms ih =>
    intro ls h
    cases ls with
    | nil => simp at h
    | cons a as =>
      simp only [List.map_cons, List.cons.injEq] at h
      have hv := entryOf_vid a m h.1
      rw [List.filter_cons, List.filter_cons, ← hv]
      by_cases hk : m.vid = k
      · simp only [hk, decide_True, if_true, List.map_cons, ih as h.2]
        rw [← hk, h.1]
      · simp only [hk, decide_False, Bool.false_eq_true, if_false, ih as h.2]

theorem entryOf_some (line : Str) (m : Movie) (h : entryOf line = some m) :
    ∃ start end_ : Int,
      ParseDuration ((stringsSplit '\t' line).getD 1 []) = .ok start
        ∧ ParseDuration ((stringsSplit '\t' line).getD 2 []) = .ok end_
        ∧ m = ⟨(stringsSplit '\t' line).getD 0 [], start, end_,
            (stringsSplit '\t' line).getD 3 [], (stringsSplit '\t' line).getD 4 []⟩ := by
  unfold entryOf at h
  simp only at h
  split at h
  · split at h
    · rename_i st en hst hen
      split at h
      · exact absurd h (by simp)
      · injection h with h
        exact ⟨st, en, hst, hen, h.symm⟩
    · exact absurd h (by simp)
  · exact absurd h (by simp)

/-- C9: in a Manifest that `readSplitFile` returns, an identifier that is
field 0 of one or several lines before the first short line has exactly one
entry (an identifier of no line has none), and the entry holds the start, the
end and the two labels of the last such line, whatever the other lines are. -/
theorem readSplitFile_last_line_wins (w : World) (sp data : Str) (mm : Manifest)
    (hread : w.read sp = some data) (hok : readSplitFile w sp = .ok mm) (k : Str) :
    ((mm.filter (fun e => e.1 = k)).length
        = if linesOf k (scanLines data) = [] then 0 else 1)
      ∧ (linesOf k (scanLines data) = [] → mm.get k = none)
      ∧ (∀ l, (linesOf k (scanLines data)).getLast? = some l →
          ∃ start end_ : Int,
            ParseDuration ((stringsSplit '\t' l).getD 1 []) = .ok start
              ∧ ParseDuration ((stringsSplit '\t' l).getD 2 []) = .ok end_
              ∧ mm.get k = some ⟨k, start, end_,
                  (stringsSplit '\t' l).getD 3 [], (stringsSplit '\t' l).getD 4 []⟩) := by
  unfold readSplitFile at hok
  rw [hread] at hok
  simp only at hok
  obtain ⟨ms, h1, h2⟩ := readLines_ok_entries _ _ _ hok
  have hmm : mm = manifestOf ms := h2
  have hf : (linesOf k (scanLines data)).map entryOf
      = (ms.filter (fun m => m.vid = k)).map some := entries_filter k ms _ h1
  have hnil : linesOf k (scanLines data) = [] ↔ ms.filter (fun m => m.vid = k) = [] := by
    rw [← List.map_eq_nil_iff, hf, List.map_eq_nil_iff]
  have hlast : (linesOf k (scanLines data)).getLast?.map entryOf = (mm.get k).map some := by
    rw [hmm, manifestOf_get, ← List.getLast?_map, hf, List.getLast?_map]
  refine ⟨?_, ?_, ?_⟩
  · rw [hmm, manifestOf_count]
    simp only [hnil]
  · intro h0
    rw [h0] at hlast
    cases hg : mm.get k with
    | none => rfl
    | some m => rw [hg] at hlast; simp at hlast
  · intro l hl
    rw [hl] at hlast
    cases hg : mm.get k with
    | none => rw [hg] at hlast; simp at hlast
    | some m =>
      rw [hg] at hlast
      simp only [Option.map_some', Option.some.injEq] at hlast
      obtain ⟨st, en, hst, hen, hm⟩ := entryOf_some l m hlast
      have hmem : l ∈ linesOf k (scanLines data) := List.mem_of_getLast?_eq_some hl
      have hk : (stringsSplit '\t' l).getD 0 [] = k := by
        simpa using (List.mem_filter.mp hmem).2
      rw [hk] at hm
      exact ⟨st, en, hst, hen, by rw [hm]⟩

/-- C9 at the manifest `demoDuplicates`: `A` has one entry, that of line 3. -/
theorem readSplitFile_last_line_wins_witness :
    (((manifestOf [⟨"A".toList, 1000000000, 2000000000, "p".toList, "q".toList⟩,
          ⟨"B".toList, 1000000000, 5000000000, "x".toList, "y".toList⟩,
          ⟨"A".toList, 3000000000, 4000000000, "r".toList, "s".toList⟩]).filter
          (fun e => e.1 = "A".toList)).length
        = if linesOf "A".toList (scanLines demoDuplicates) = [] then 0 else 1)
      ∧ Manifest.get (manifestOf
          [⟨"A".toList, 1000000000, 2000000000, "p".toList, "q".toList⟩,
            ⟨"B".toList, 1000000000, 5000000000, "x".toList, "y".toList⟩,
            ⟨"A".toList, 3000000000, 4000000000, "r".toList, "s".toList⟩]) "A".toList
        = some ⟨"A".toList, 3000000000, 4000000000, "r".toList, "s".toList⟩ :=
  ⟨(readSplitFile_last_line_wins ⟨[("split.txt".toList, demoDuplicates)]⟩
      "split.txt".toList demoDuplicates _ (by decide) (by decide) "A".toList).1,
    by decide⟩

/-! ## sorting -/

theorem strLe_total : ∀ a b : Str, strLe a b = true ∨ strLe b a = true := by
  intro a
  induction a with
  | nil => intro b; left; cases b <;> rfl
  | cons x xs ih =>
    intro b
    cases b with
    | nil => right; rfl
    | cons y ys =>
      rcases lt_trichotomy x y with h | h | h
      · left; simp [strLe, h]
      · subst h
        rcases ih ys with h1 | h1
        · left; simp [strLe, h1]
        · right; simp [strLe, h1]
      · right; simp [strLe, h]

theorem strLe_trans : ∀ a b c : Str, strLe a b = true → strLe b c = true → strLe a c = true := by
  intro a
  induction a with
  | nil => intro b c _ _; cases c <;> rfl
  | cons x xs ih =>
    intro b c hab hbc
    cases b with
    | nil => simp [strLe] at hab
    | cons y ys =>
      cases c with
      | nil => simp [strLe] at hbc
      | cons z zs =>
        simp only [strLe] at hab hbc ⊢
        by_cases hxy : x < y
        · by_cases hyz : y < z
          · simp [lt_trans hxy hyz]
          · simp only [hyz, if_false] at hbc
            by_cases hyz2 : y = z
            · subst hyz2; simp [hxy]
            · simp [hyz2] at hbc
        · simp only [hxy, if_false] at hab
          by_cases hxy2 : x = y
          · subst hxy2
            simp only [if_true] at hab
            by_cases hyz : x < z
            · simp [hyz]
            · simp only [hyz, if_false] at hbc ⊢
              by_cases hyz2 : x = z
              · subst hyz2
                simp only [if_true] at hbc ⊢
                exact ih ys zs hab hbc
              · simp [hyz2] at hbc
          · simp [hxy2] at hab

theorem strLe_antisymm : ∀ a b : Str, strLe a b = true → strLe b a = true → a = b := by
  intro a
  induction a with
  | nil =>
    intro b _ hba
    cases b with
    | nil => rfl
    | cons y ys => simp [strLe] at hba
  | cons x xs ih =>
    intro b hab hba
    cases b with
    | nil => simp [strLe] at hab
    | cons y ys =>
      simp only [strLe] at hab hba
      rcases lt_trichotomy x y with h | h | h
      · have h1 : ¬ y < x := not_lt_of_gt h
        have h2 : ¬ y = x := fun e => (ne_of_lt h) e.symm
        simp [h1, h2] at hba
      · subst h
        simp only [lt_irrefl, if_false, if_true] at hab hba
        rw [ih ys hab hba]
      · have h1 : ¬ x < y := not_lt_of_gt h
        have h2 : ¬ x = y := fun e => (ne_of_lt h) e.symm
        simp [h1, h2] at hab

theorem insertSorted_perm (x : Str) : ∀ l : List Str, (insertSorted x l).Perm (x :: l) := by
  intro l
  induction l with
  | nil => exact List.Perm.refl _
  | cons y ys ih =>
    unfold insertSorted
    by_cases h : strLe x y = true
    · simp only [h, if_true]
      exact List.Perm.refl _
    · simp only [h, if_false]
      exact (List.Perm.cons y ih).trans (List.Perm.swap x y ys)

theorem insertSorted_sorted (x : Str) :
    ∀ l : List Str, List.Sorted (fun a b => strLe a b = true) l →
      List.Sorted (fun a b => strLe a b = true) (insertSorted x l) := by
  intro l
  induction l with
  | nil => intro _; simp [insertSorted]
  | cons y ys ih =>
    intro hs
    have hy := List.rel_of_sorted_cons hs
    have hys := List.Sorted.of_cons hs
    unfold insertSorted
    by_cases h : strLe x y = true
    · simp only [h, if_true]
      refine List.sorted_cons.mpr ⟨?_, hs⟩
      intro z hz
      rcases List.mem_cons.mp hz with hz | hz
      · rw [hz]; exact h
      · exact strLe_trans x y z h (hy z hz)
    · simp only [h, if_false]
      refine List.sorted_cons.mpr ⟨?_, ih hys⟩
      intro z hz
      rcases List.mem_cons.mp ((insertSorted_perm x ys).mem_iff.mp hz) with hz | hz
      · rw [hz]
        rcases strLe_total x y with h1 | h1
        · exact absurd h1 h
        · exact h1
      · exact hy z hz

theorem sortStrings_perm : ∀ l : List Str, (sortStrings l).Perm l := by
  intro l
  induction l with
  | nil => exact List.Perm.refl _
  | cons x xs ih =>
    exact (insertSorted_perm x (sortStrings xs)).trans (List.Perm.cons x ih)

theorem sortStrings_sorted :
    ∀ l : List Str, List.Sorted (fun a b => strLe a b = true) (sortStrings l) := by
  intro l
  induction l with
  | nil => simp [sortStrings]
  | cons x xs ih => exact insertSorted_sorted x _ ih

theorem insertSorted_split (x : Str) :
    ∀ l : List Str, ∃ a b, insertSorted x l = a ++ x :: b ∧ l = a ++ b := by
  intro l
  induction l with
  | nil => exact ⟨[], [], rfl, rfl⟩
  | cons y ys ih =>
    unfold insertSorted
    by_cases h : strLe x y = true
    · simp only [h, if_true]
      exact ⟨[], y :: ys, rfl, rfl⟩
    · simp only [h, if_false]
      obtain ⟨a, b, h1, h2⟩ := ih
      exact ⟨y :: a, b, by rw [h1]; rfl, by rw [h2]; rfl⟩

/-- Sorting a list with one more path gives the sorted list with that path put
in at one place. -/
theorem sortStrings_insert (p : Str) (pl1 pl2 : List Str) :
    ∃ a b, sortStrings (pl1 ++ p :: pl2) = a ++ p :: b ∧ sortStrings (pl1 ++ pl2) = a ++ b := by
  obtain ⟨a, b, h1, h2⟩ := insertSorted_split p (sortStrings (pl1 ++ pl2))
  refine ⟨a, b, ?_, h2⟩
  rw [← h1]
  haveI : IsAntisymm Str (fun a b => strLe a b = true) := ⟨strLe_antisymm⟩
  apply List.eq_of_perm_of_sorted _ (sortStrings_sorted _)
    (insertSorted_sorted p _ (sortStrings_sorted _))
  refine (sortStrings_perm _).trans ?_
  refine List.Perm.trans ?_ (insertSorted_perm p _).symm
  exact List.perm_middle.trans (List.Perm.cons p (sortStrings_perm _).symm)

/-! ## the segment extractor -/

theorem take_length_takeWhile (q : Char → Bool) :
    ∀ s : Str, s.take (s.takeWhile q).length = s.takeWhile q := by
  intro s
  induction s with
  | nil => rfl
  | cons c cs ih =>
    rw [List.takeWhile_cons]
    by_cases hc : q c = true
    · simp only [hc, if_true, List.length_cons, List.take_succ_cons, ih]
    · simp [hc]

theorem stringsIndex_cases (c : Char) :
    ∀ s : Str, (c ∉ s ∧ stringsIndex c s = -1)
      ∨ (c ∈ s ∧ stringsIndex c s = ((s.takeWhile (fun x => x ≠ c)).length : Int)) := by
  intro s
  induction s with
  | nil => left; exact ⟨by simp, rfl⟩
  | cons x xs ih =>
    by_cases hx : x = c
    · right
      subst hx
      refine ⟨by simp, ?_⟩
      simp [stringsIndex, List.takeWhile_cons]
    · rcases ih with ⟨h1, h2⟩ | ⟨h1, h2⟩
      · left
        refine ⟨?_, ?_⟩
        · intro hm
          rcases List.mem_cons.mp hm with h | h
          · exact hx h.symm
          · exact h1 h
        · simp [stringsIndex, hx, h2]
      · right
        refine ⟨List.mem_cons_of_mem _ h1, ?_⟩
        have hnn : ¬ stringsIndex c xs < 0 := by rw [h2]; omega
        simp only [stringsIndex, hx, if_false, hnn, List.takeWhile_cons]
        simp [hx, h2]

theorem sliceTo_index (c : Char) (s : Str) (hc : c ∈ s) :
    sliceTo s (stringsIndex c s) = some (s.takeWhile (fun x => x ≠ c)) := by
  rcases stringsIndex_cases c s with ⟨h1, _⟩ | ⟨_, h2⟩
  · exact absurd hc h1
  · have hle : (s.takeWhile (fun x => x ≠ c)).length ≤ s.length :=
      (List.takeWhile_sublist _).length_le
    unfold sliceTo
    rw [h2]
    have hcond : (0 : Int) ≤ ((s.takeWhile (fun x => x ≠ c)).length : Int)
        ∧ ((s.takeWhile (fun x => x ≠ c)).length : Int) ≤ (s.length : Int) := by
      constructor <;> omega
    simp only [hcond, and_self, if_true, Int.toNat_ofNat, take_length_takeWhile]

theorem sliceTo_index_none (c : Char) (s : Str) (hc : c ∉ s) :
    sliceTo s (stringsIndex c s) = none := by
  rcases stringsIndex_cases c s with ⟨_, h2⟩ | ⟨h1, _⟩
  · unfold sliceTo
    rw [h2]
    simp
  · exact absurd h1 hc

theorem splitLoop_unmatched (h : Host) (tmp : Str) (mm : Manifest) (p : Str)
    (ps ml : List Str) (s : State)
    (hund : '_' ∈ filepathSplitFile p) (hno : mm.get (identifier p) = none) :
    splitLoop h tmp mm (p :: ps) ml s = splitLoop h tmp mm ps ml s := by
  rw [splitLoop]
  simp only [sliceTo_index '_' _ hund]
  unfold identifier at hno
  rw [hno]

theorem splitLoop_existing (h : Host) (tmp : Str) (mm : Manifest) (p : Str)
    (ps ml : List Str) (s : State) (m : Movie)
    (hund : '_' ∈ filepathSplitFile p) (hm : mm.get (identifier p) = some m)
    (hex : (s.world.read (h.Join tmp (m.vid ++ clipSuffix))).isSome = true) :
    splitLoop h tmp mm (p :: ps) ml s
      = splitLoop h tmp mm ps (ml ++ [h.Join tmp (m.vid ++ clipSuffix)])
          ⟨s.world, s.trace ++ [.stat (h.Join tmp (m.vid ++ clipSuffix))]⟩ := by
  rw [splitLoop]
  simp only [sliceTo_index '_' _ hund]
  unfold identifier at hm
  rw [hm]
  simp only [isExist, hex, Bool.true_eq_false, if_false]

theorem splitLoop_fresh (h : Host) (tmp : Str) (mm : Manifest) (p : Str)
    (ps ml : List Str) (s : State) (m : Movie)
    (hund : '_' ∈ filepathSplitFile p) (hm : mm.get (identifier p) = some m)
    (hex : (s.world.read (h.Join tmp (m.vid ++ clipSuffix))).isSome = false)
    (hrun : (h.ffmpeg s.world
      (ffmpegSplitArgs m p (h.Join tmp (m.vid ++ clipSuffix)))).1 = none) :
    splitLoop h tmp mm (p :: ps) ml s
      = splitLoop h tmp mm ps (ml ++ [h.Join tmp (m.vid ++ clipSuffix)])
          ⟨(h.ffmpeg s.world (ffmpegSplitArgs m p (h.Join tmp (m.vid ++ clipSuffix)))).2,
            s.trace ++ [.stat (h.Join tmp (m.vid ++ clipSuffix))]
              ++ [.exec (ffmpegSplitArgs m p (h.Join tmp (m.vid ++ clipSuffix)))]⟩ := by
  rw [splitLoop]
  simp only [sliceTo_index '_' _ hund]
  unfold identifier at hm
  rw [hm]
  simp only [isExist, hex, if_true, Movie.ffmpegSplit, hrun]

theorem splitLoop_panic (h : Host) (tmp : Str) (mm : Manifest) (p : Str)
    (ps ml : List Str) (s : State) (hund : '_' ∉ filepathSplitFile p) :
    splitLoop h tmp mm (p :: ps) ml s = (.panic, s) := by
  rw [splitLoop]
  simp only [sliceTo_index_none '_' _ hund]

theorem splitLoop_failed (h : Host) (tmp : Str) (mm : Manifest) (p : Str)
    (ps ml : List Str) (s : State) (m : Movie) (err : Str)
    (hund : '_' ∈ filepathSplitFile p) (hm : mm.get (identifier p) = some m)
    (hex : (s.world.read (h.Join tmp (m.vid ++ clipSuffix))).isSome = false)
    (hrun : (h.ffmpeg s.world
      (ffmpegSplitArgs m p (h.Join tmp (m.vid ++ clipSuffix)))).1 = some err) :
    splitLoop h tmp mm (p :: ps) ml s
      = (.error (.split err),
          ⟨(h.ffmpeg s.world (ffmpegSplitArgs m p (h.Join tmp (m.vid ++ clipSuffix)))).2,
            s.trace ++ [.stat (h.Join tmp (m.vid ++ clipSuffix))]
              ++ [.exec (ffmpegSplitArgs m p (h.Join tmp (m.vid ++ clipSuffix)))]⟩) := by
  rw [splitLoop]
  simp only [sliceTo_index '_' _ hund]
  unfold identifier at hm
  rw [hm]
  simp only [isExist, hex, if_true, Movie.ffmpegSplit, hrun]

/-- One round of the loop either stops, with a panic or an error, or goes on
with the clip of the file, if it has one, added to the list. -/
theorem splitLoop_cons_cases (h : Host) (tmp : Str) (mm : Manifest) (p : Str)
    (ml : List Str) (s : State) :
    (∃ r : Outcome (List Str) × State, (∀ out, r.1 ≠ .ok out)
        ∧ ∀ ps, splitLoop h tmp mm (p :: ps) ml s = r)
      ∨ (∃ s1 : State,
          ∀ ps, splitLoop h tmp mm (p :: ps) ml s
            = splitLoop h tmp mm ps (ml ++ (clipOf h tmp mm p).toList) s1) := by
  by_cases hund : '_' ∈ filepathSplitFile p
  · cases hm : mm.get (identifier p) with
    | none =>
      right
      refine ⟨s, fun ps => ?_⟩
      rw [splitLoop_unmatched h tmp mm p ps ml s hund hm]
      simp [clipOf, hm]
    | some m =>
      cases hex : (s.world.read (h.Join tmp (m.vid ++ clipSuffix))).isSome with
      | true =>
        right
        refine ⟨⟨s.world, s.trace ++ [.stat (h.Join tmp (m.vid ++ clipSuffix))]⟩,
          fun ps => ?_⟩
        rw [splitLoop_existing h tmp mm p ps ml s m hund hm hex]
        simp [clipOf, hm]
      | false =>
        cases hrun : (h.ffmpeg s.world
            (ffmpegSplitArgs m p (h.Join tmp (m.vid ++ clipSuffix)))).1 with
        | none =>
          right
          refine ⟨⟨(h.ffmpeg s.world
              (ffmpegSplitArgs m p (h.Join tmp (m.vid ++ clipSuffix)))).2,
            s.trace ++ [.stat (h.Join tmp (m.vid ++ clipSuffix))]
              ++ [.exec (ffmpegSplitArgs m p (h.Join tmp (m.vid ++ clipSuffix)))]⟩,
            fun ps => ?_⟩
          rw [splitLoop_fresh h tmp mm p ps ml s m hund hm hex hrun]
          simp [clipOf, hm]
        | some err =>
          left
          exact ⟨_, by simp, fun ps => splitLoop_failed h tmp mm p ps ml s m err hund hm hex hrun⟩
  · left
    exact ⟨_, by simp, fun ps => splitLoop_panic h tmp mm p ps ml s hund⟩

theorem filterMap_cons_toList {α β : Type} (f : α → Option β) (a : α) (l : List α) :
    (a :: l).filterMap f = (f a).toList ++ l.filterMap f := by
  rw [List.filterMap_cons]
  cases f a <;> rfl

theorem splitLoop_append_ok (h : Host) (tmp : Str) (mm : Manifest) (b : List Str) :
    ∀ (a ml : List Str) (s : State) (ml1 : List Str) (s1 : State),
      splitLoop h tmp mm a ml s = (.ok ml1, s1) →
      splitLoop h tmp mm (a ++ b) ml s = splitLoop h tmp mm b ml1 s1 := by
  intro a
  induction a with
  | nil =>
    intro ml s ml1 s1 hok
    simp only [splitLoop, Prod.mk.injEq, Outcome.ok.injEq] at hok
    rw [List.nil_append, hok.1, hok.2]
  | cons x a ih =>
    intro ml s ml1 s1 hok
    rcases splitLoop_cons_cases h tmp mm x ml s with ⟨r, hr, hstop⟩ | ⟨s2, hgo⟩
    · rw [hstop a] at hok
      exact absurd (congrArg Prod.fst hok) (hr ml1)
    · rw [hgo a] at hok
      rw [List.cons_append, hgo (a ++ b)]
      exact ih _ _ _ _ hok

theorem splitLoop_ok_list (h : Host) (tmp : Str) (mm : Manifest) :
    ∀ (ps ml : List Str) (s : State) (out : List Str) (s1 : State),
      splitLoop h tmp mm ps ml s = (.ok out, s1) →
      out = ml ++ ps.filterMap (clipOf h tmp mm) := by
  intro ps
  induction ps with
  | nil =>
    intro ml s out s1 hok
    simp only [splitLoop, Prod.mk.injEq, Outcome.ok.injEq] at hok
    simp [hok.1]
  | cons x ps ih =>
    intro ml s out s1 hok
    rcases splitLoop_cons_cases h tmp mm x ml s with ⟨r, hr, hstop⟩ | ⟨s2, hgo⟩
    · rw [hstop ps] at hok
      exact absurd (congrArg Prod.fst hok) (hr out)
    · rw [hgo ps] at hok
      rw [ih _ _ _ _ hok, filterMap_cons_toList, List.append_assoc]

theorem splitLoop_all_ok (h : Host) (tmp : Str) (mm : Manifest)
    (hok : ∀ w args, (h.ffmpeg w args).1 = none) :
    ∀ (ps ml : List Str) (s : State), (∀ p ∈ ps, '_' ∈ filepathSplitFile p) →
      ∃ s1, splitLoop h tmp mm ps ml s = (.ok (ml ++ ps.filterMap (clipOf h tmp mm)), s1) := by
  intro ps
  induction ps with
  | nil =>
    intro ml s _
    exact ⟨s, by simp [splitLoop]⟩
  | cons x ps ih =>
    intro ml s hund
    have hx := hund x (List.mem_cons_self _ _)
    have hps : ∀ p ∈ ps, '_' ∈ filepathSplitFile p :=
      fun p hp => hund p (List.mem_cons_of_mem _ hp)
    rcases splitLoop_cons_cases h tmp mm x ml s with ⟨r, hr, hstop⟩ | ⟨s2, hgo⟩
    · exfalso
      cases hm : mm.get (identifier x) with
      | none =>
        have h1 := splitLoop_unmatched h tmp mm x [] ml s hx hm
        rw [hstop []] at h1
        rw [h1] at hr
        exact hr ml rfl
      | some m =>
        cases hex : (s.world.read (h.Join tmp (m.vid ++ clipSuffix))).isSome with
        | true =>
          have h1 := splitLoop_existing h tmp mm x [] ml s m hx hm hex
          rw [hstop []] at h1
          rw [h1] at hr
          exact hr _ rfl
        | false =>
          have h1 := splitLoop_fresh h tmp mm x [] ml s m hx hm hex (hok _ _)
          rw [hstop []] at h1
          rw [h1] at hr
          exact hr _ rfl
    · obtain ⟨s1, h1⟩ := ih (ml ++ (clipOf h tmp mm x).toList) s2 hps
      refine ⟨s1, ?_⟩
      rw [hgo ps, h1, filterMap_cons_toList, List.append_assoc]

theorem splitLoop_skip_unmatched (h : Host) (tmp : Str) (mm : Manifest) (p : Str)
    (b : List Str) (hund : '_' ∈ filepathSplitFile p) (hno : mm.get (identifier p) = none) :
    ∀ (a ml : List Str) (s : State),
      splitLoop h tmp mm (a ++ p :: b) ml s = splitLoop h tmp mm (a ++ b) ml s := by
  intro a
  induction a with
  | nil =>
    intro ml s
    exact splitLoop_unmatched h tmp mm p b ml s hund hno
  | cons x a ih =>
    intro ml s
    rcases splitLoop_cons_cases h tmp mm x ml s with ⟨r, _, hstop⟩ | ⟨s2, hgo⟩
    · rw [List.cons_append, List.cons_append, hstop, hstop]
    · rw [List.cons_append, List.cons_append, hgo, hgo]
      exact ih _ _

/-- With entries sitting under their own identifier, the clips of a list of
paths are the matched paths mapped to `<tmp>/<identifier>_movie-splitcat.mp4`. -/
theorem filterMap_clipOf (h : Host) (tmp : Str) (mm : Manifest)
    (hinv : ∀ k m, mm.get k = some m → m.vid = k) :
    ∀ ps : List Str, ps.filterMap (clipOf h tmp mm)
      = (ps.filter (fun p => (mm.get (identifier p)).isSome)).map
          (fun p => h.Join tmp (identifier p ++ clipSuffix)) := by
  intro ps
  induction ps with
  | nil => rfl
  | cons x ps ih =>
    rw [filterMap_cons_toList, List.filter_cons, ih]
    cases hm : mm.get (identifier x) with
    | none => simp [clipOf, hm]
    | some m => simp [clipOf, hm, hinv _ _ hm]

theorem readSplitFile_manifestOf (w : World) (sp data : Str) (mm : Manifest)
    (hread : w.read sp = some data) (hok : readSplitFile w sp = .ok mm) :
    ∃ ms : List Movie,
      (entryLines (scanLines data)).map entryOf = ms.map some ∧ mm = manifestOf ms := by
  unfold readSplitFile at hok
  rw [hread] at hok
  exact readLines_ok_entries _ _ _ hok

theorem readSplitFile_keys (w : World) (sp data : Str) (mm : Manifest)
    (hread : w.read sp = some data) (hok : readSplitFile w sp = .ok mm) (k : Str) :
    (mm.get k).isSome = true
      ↔ ∃ l ∈ entryLines (scanLines data), (stringsSplit '\t' l).getD 0 [] = k := by
  obtain ⟨ms, h1, h2⟩ := readSplitFile_manifestOf w sp data mm hread hok
  have hf := entries_filter k ms _ h1
  have hnil : (entryLines (scanLines data)).filter
        (fun l => (stringsSplit '\t' l).getD 0 [] = k) = []
      ↔ ms.filter (fun m => m.vid = k) = [] := by
    rw [← List.map_eq_nil_iff, hf, List.map_eq_nil_iff]
  rw [h2, manifestOf_get]
  constructor
  · intro hs
    have hne : (entryLines (scanLines data)).filter
        (fun l => (stringsSplit '\t' l).getD 0 [] = k) ≠ [] := by
      intro h0
      rw [hnil.mp h0] at hs
      simp at hs
    obtain ⟨l, hl⟩ := List.exists_mem_of_ne_nil _ hne
    exact ⟨l, (List.mem_filter.mp hl).1, by simpa using (List.mem_filter.mp hl).2⟩
  · rintro ⟨l, hl, hk⟩
    have hmem : l ∈ (entryLines (scanLines data)).filter
        (fun l => (stringsSplit '\t' l).getD 0 [] = k) :=
      List.mem_filter.mpr ⟨hl, by simpa using hk⟩
    have hne : ms.filter (fun m => m.vid = k) ≠ [] := by
      intro h0
      rw [hnil.mpr h0] at hmem
      simp at hmem
    cases hg : (ms.filter (fun m => m.vid = k)).getLast? with
    | none => exact absurd (List.getLast?_eq_none_iff.mp hg) hne
    | some m => rfl

theorem splitMovies_all_ok (h : Host) (base tmp : Str) (mm : Manifest) (pl : List Str)
    (s : State)
    (hinv : ∀ k m, mm.get k = some m → m.vid = k)
    (hglob : h.Glob s.world (h.Join base "*.mp4".toList) = some pl)
    (hund : ∀ p ∈ pl, '_' ∈ filepathSplitFile p)
    (hrun : ∀ w1 args, (h.ffmpeg w1 args).1 = none) :
    (splitMovies h base tmp mm s).1 = .ok (clipList h tmp mm pl) := by
  unfold splitMovies
  rw [hglob]
  have hs : ∀ p ∈ sortStrings pl, '_' ∈ filepathSplitFile p :=
    fun p hp => hund p ((sortStrings_perm pl).mem_iff.mp hp)
  obtain ⟨s1, h1⟩ := splitLoop_all_ok h tmp mm hrun (sortStrings pl) [] s hs
  simp only [h1, List.nil_append, filterMap_clipOf h tmp mm hinv]
  rfl

/-- C4: for a Manifest returned by `readSplitFile`, source paths whose basenames
all contain an underscore, and a transcoder that never fails, `splitMovies`
returns the reference Clip List: the source paths in sorted order (`sortStrings`
gives an increasing rearrangement), those whose identifier is a key kept, each
mapped to `<tmp>/<identifier>_movie-splitcat.mp4`.  A manifest with the same
entry lines in another order gives the same list. -/
theorem splitMovies_clip_list (h : Host) (w : World) (sp data : Str) (mm : Manifest)
    (base tmp : Str) (pl : List Str) (s : State)
    (hread : w.read sp = some data)
    (hmm : readSplitFile w sp = .ok mm)
    (hglob : h.Glob s.world (h.Join base "*.mp4".toList) = some pl)
    (hund : ∀ p ∈ pl, '_' ∈ filepathSplitFile p)
    (hrun : ∀ w1 args, (h.ffmpeg w1 args).1 = none) :
    (splitMovies h base tmp mm s).1 = .ok (clipList h tmp mm pl)
      ∧ List.Sorted (fun a b => strLe a b = true) (sortStrings pl)
      ∧ (sortStrings pl).Perm pl
      ∧ (∀ (w1 : World) (sp1 data1 : Str) (mm1 : Manifest),
          w1.read sp1 = some data1 → readSplitFile w1 sp1 = .ok mm1 →
          (scanLines data1).Perm (entryLines (scanLines data)) →
          (splitMovies h base tmp mm1 s).1 = (splitMovies h base tmp mm s).1) := by
  have hinv : ∀ k m, mm.get k = some m → m.vid = k := by
    obtain ⟨ms, _, h2⟩ := readSplitFile_manifestOf w sp data mm hread hmm
    rw [h2]
    exact manifestOf_vid ms
  have hmain := splitMovies_all_ok h base tmp mm pl s hinv hglob hund hrun
  refine ⟨hmain, sortStrings_sorted pl, sortStrings_perm pl, ?_⟩
  intro w1 sp1 data1 mm1 hread1 hmm1 hperm
  have hinv1 : ∀ k m, mm1.get k = some m → m.vid = k := by
    obtain ⟨ms, _, h2⟩ := readSplitFile_manifestOf w1 sp1 data1 mm1 hread1 hmm1
    rw [h2]
    exact manifestOf_vid ms
  rw [hmain, splitMovies_all_ok h base tmp mm1 pl s hinv1 hglob hund hrun]
  have hall : entryLines (scanLines data1) = scanLines data1 := by
    unfold entryLines
    rw [List.takeWhile_eq_self_iff]
    intro l hl
    have hl2 : l ∈ entryLines (scanLines data) := hperm.mem_iff.mp hl
    unfold entryLines at hl2
    exact List.mem_takeWhile_imp
      (p := fun l => decide (5 ≤ (stringsSplit '\t' l).length)) hl2
  have hkeys : ∀ k, (mm1.get k).isSome = (mm.get k).isSome := by
    intro k
    rw [Bool.eq_iff_iff, readSplitFile_keys w1 sp1 data1 mm1 hread1 hmm1 k,
      readSplitFile_keys w sp data mm hread hmm k, hall]
    constructor
    · rintro ⟨l, hl, hk⟩
      exact ⟨l, hperm.mem_iff.mp hl, hk⟩
    · rintro ⟨l, hl, hk⟩
      exact ⟨l, hperm.mem_iff.mpr hl, hk⟩
  unfold clipList
  simp only [hkeys]

/-- C4 at a concrete run: the manifest lists `B` before `A`, the directory has
two files for `A`, one for `B` and one for `C`; the Clip List has the clip of
`A` twice, then the clip of `B`. -/
theorem splitMovies_clip_list_witness :
    (splitMovies (demoHost demoSources (fun _ => false)) "src".toList "tmp".toList
        demoManifest ⟨⟨[]⟩, []⟩).1
        = .ok (clipList (demoHost demoSources (fun _ => false)) "tmp".toList
            demoManifest demoSources)
      ∧ clipList (demoHost demoSources (fun _ => false)) "tmp".toList demoManifest demoSources
        = ["tmp/A_movie-splitcat.mp4".toList, "tmp/A_movie-splitcat.mp4".toList,
            "tmp/B_movie-splitcat.mp4".toList] :=
  ⟨(splitMovies_clip_list (demoHost demoSources (fun _ => false))
      ⟨[("split.txt".toList, demoManifestBA)]⟩ "split.txt".toList demoManifestBA
      demoManifest "src".toList "tmp".toList demoSources ⟨⟨[]⟩, []⟩
      (by decide) (by decide) rfl (by decide) (fun _ _ => rfl)).1,
    by decide⟩

/-- C5: when the files before `p` in sorted order have been processed, giving
the list `ml` and the state `s1`, and the output path of the matched file `p`
exists then, processing `p` only checks that path (no run of the transcoder is
added to the trace, the files are unchanged) and appends it to `ml`; the list
`splitMovies` returns has it right after the clips of the files before `p`. -/
theorem splitMovies_skips_existing (h : Host) (base tmp : Str) (mm : Manifest)
    (pl pre : List Str) (p : Str) (post ml : List Str) (s s1 : State) (m : Movie)
    (hglob : h.Glob s.world (h.Join base "*.mp4".toList) = some pl)
    (hsort : sortStrings pl = pre ++ p :: post)
    (hpre : splitLoop h tmp mm pre [] s = (.ok ml, s1))
    (hund : '_' ∈ filepathSplitFile p)
    (hm : mm.get (identifier p) = some m)
    (hex : (isExist s1 (h.Join tmp (m.vid ++ clipSuffix))).1 = true) :
    splitMovies h base tmp mm s
        = splitLoop h tmp mm post (ml ++ [h.Join tmp (m.vid ++ clipSuffix)])
            ⟨s1.world, s1.trace ++ [.stat (h.Join tmp (m.vid ++ clipSuffix))]⟩
      ∧ ml = pre.filterMap (clipOf h tmp mm)
      ∧ (∀ out s2, splitMovies h base tmp mm s = (.ok out, s2) →
          out = pre.filterMap (clipOf h tmp mm) ++ [h.Join tmp (m.vid ++ clipSuffix)]
            ++ post.filterMap (clipOf h tmp mm)) := by
  have hml : ml = pre.filterMap (clipOf h tmp mm) := by
    simpa using splitLoop_ok_list h tmp mm pre [] s ml s1 hpre
  have hrun : splitMovies h base tmp mm s
      = splitLoop h tmp mm post (ml ++ [h.Join tmp (m.vid ++ clipSuffix)])
          ⟨s1.world, s1.trace ++ [.stat (h.Join tmp (m.vid ++ clipSuffix))]⟩ := by
    unfold splitMovies
    rw [hglob]
    simp only
    rw [hsort, splitLoop_append_ok h tmp mm (p :: post) pre [] s ml s1 hpre]
    exact splitLoop_existing h tmp mm p post ml s1 m hund hm hex
  refine ⟨hrun, hml, ?_⟩
  intro out s2 hout
  rw [hrun] at hout
  rw [splitLoop_ok_list h tmp mm post _ _ out s2 hout, hml]

/-- C5 at a concrete run: the clip of `A` is already in `tmp`, so the one source
file of `A` costs one existence check and no run of the transcoder. -/
theorem splitMovies_skips_existing_witness :
    splitMovies (demoHost ["src/A_x.mp4".toList] (fun _ => false)) "src".toList
        "tmp".toList demoManifest ⟨⟨[("tmp/A_movie-splitcat.mp4".toList, [])]⟩, []⟩
      = (.ok ["tmp/A_movie-splitcat.mp4".toList],
          ⟨⟨[("tmp/A_movie-splitcat.mp4".toList, [])]⟩,
            [.stat "tmp/A_movie-splitcat.mp4".toList]⟩) :=
  (splitMovies_skips_existing (demoHost ["src/A_x.mp4".toList] (fun _ => false))
    "src".toList "tmp".toList demoManifest ["src/A_x.mp4".toList] []
    "src/A_x.mp4".toList [] []
    ⟨⟨[("tmp/A_movie-splitcat.mp4".toList, [])]⟩, []⟩
    ⟨⟨[("tmp/A_movie-splitcat.mp4".toList, [])]⟩, []⟩
    ⟨"A".toList, 10000000000, 70000000000, "x".toList, "y".toList⟩
    rfl (by decide) rfl (by decide) (by decide) (by decide)).1

theorem splitLoop_congr (h h1 : Host) (tmp : Str) (mm : Manifest)
    (hJ : h1.Join = h.Join) (hF : h1.ffmpeg = h.ffmpeg) :
    ∀ (ps ml : List Str) (s : State),
      splitLoop h1 tmp mm ps ml s = splitLoop h tmp mm ps ml s := by
  intro ps
  induction ps with
  | nil => intro ml s; rfl
  | cons x ps ih =>
    intro ml s
    simp only [splitLoop, Movie.ffmpegSplit, hJ, hF, ih]

/-- C6: a source file whose identifier has no Manifest entry is passed over: the
round of the loop for it leaves the list, the files and the trace (existence
checks and runs of the transcoder) as they are, and the whole result of
`splitMovies`, error or panic included, is that of the run on a host `h1` that
differs only in not listing the file. -/
theorem splitMovies_ignores_unmatched (h h1 : Host) (base tmp : Str) (mm : Manifest)
    (pl1 : List Str) (p : Str) (pl2 : List Str) (s : State)
    (hglob : h.Glob s.world (h.Join base "*.mp4".toList) = some (pl1 ++ p :: pl2))
    (hJ : h1.Join = h.Join) (hF : h1.ffmpeg = h.ffmpeg)
    (hglob1 : h1.Glob s.world (h1.Join base "*.mp4".toList) = some (pl1 ++ pl2))
    (hund : '_' ∈ filepathSplitFile p)
    (hno : mm.get (identifier p) = none) :
    (∀ ps ml s1, splitLoop h tmp mm (p :: ps) ml s1 = splitLoop h tmp mm ps ml s1)
      ∧ splitMovies h base tmp mm s = splitMovies h1 base tmp mm s := by
  refine ⟨fun ps ml s1 => splitLoop_unmatched h tmp mm p ps ml s1 hund hno, ?_⟩
  unfold splitMovies
  rw [hglob, hglob1]
  simp only
  obtain ⟨a, b, h2, h3⟩ := sortStrings_insert p pl1 pl2
  rw [h2, h3, splitLoop_congr h h1 tmp mm hJ hF,
    splitLoop_skip_unmatched h tmp mm p b hund hno]

/-- C6 at a concrete run: with `src/C_w.mp4`, which has no entry, listed or not,
the result is the same. -/
theorem splitMovies_ignores_unmatched_witness :
    splitMovies (demoHost ["src/B_y.mp4".toList, "src/C_w.mp4".toList, "src/A_x.mp4".toList]
        (fun _ => false)) "src".toList "tmp".toList demoManifest ⟨⟨[]⟩, []⟩
      = splitMovies (demoHost ["src/B_y.mp4".toList, "src/A_x.mp4".toList]
        (fun _ => false)) "src".toList "tmp".toList demoManifest ⟨⟨[]⟩, []⟩ :=
  (splitMovies_ignores_unmatched
    (demoHost ["src/B_y.mp4".toList, "src/C_w.mp4".toList, "src/A_x.mp4".toList]
      (fun _ => false))
    (demoHost ["src/B_y.mp4".toList, "src/A_x.mp4".toList] (fun _ => false))
    "src".toList "tmp".toList demoManifest ["src/B_y.mp4".toList] "src/C_w.mp4".toList
    ["src/A_x.mp4".toList] ⟨⟨[]⟩, []⟩ rfl rfl rfl rfl (by decide) (by decide)).2

/-! ## the concat list -/

theorem lookupFile_append (name data : Str) :
    ∀ files : List (Str × Str),
      lookupFile (files.map (fun e => if e.1 = name then (e.1, e.2 ++ data) else e)) name
        = (lookupFile files name).map (fun c => c ++ data) := by
  intro files
  induction files with
  | nil => rfl
  | cons e files ih =>
    obtain ⟨n, c⟩ := e
    by_cases hn : n = name
    · show lookupFile ((if n = name then (n, c ++ data) else (n, c)) :: _) name = _
      rw [if_pos hn]
      simp [lookupFile, hn]
    · show lookupFile ((if n = name then (n, c ++ data) else (n, c)) :: _) name = _
      rw [if_neg hn]
      simp only [lookupFile, hn, if_false, ih]

theorem World.read_create (w : World) (name : Str) : (w.create name).read name = some [] := by
  simp [World.create, World.read, lookupFile]

theorem World.read_append (w : World) (name data : Str) :
    (w.append name data).read name = (w.read name).map (fun c => c ++ data) :=
  lookupFile_append name data w.files

theorem concatLine_eq (h : Host) (p : Str) : concatLine h p = concatEntry h p ++ ['\n'] := by
  simp [concatLine, concatEntry]

theorem writeClips_content (h : Host) (name : Str) :
    ∀ (ml : List Str) (w : World) (c cp : Str) (w1 : World),
      w.read name = some c → writeClips h name ml w = (.ok cp, w1) →
      cp = name ∧ w1.read name = some (c ++ concatContent h ml) := by
  intro ml
  induction ml with
  | nil =>
    intro w c cp w1 hc hok
    unfold writeClips at hok
    by_cases hf : h.flushOk w name = true
    · simp only [hf, if_true, Prod.mk.injEq, Outcome.ok.injEq] at hok
      rw [← hok.1, ← hok.2]
      exact ⟨rfl, by simp [concatContent, hc]⟩
    · simp [hf] at hok
  | cons it rest ih =>
    intro w c cp w1 hc hok
    unfold writeClips at hok
    by_cases hw : h.writeOk w name (concatLine h it) = true
    · simp only [hw, if_true] at hok
      have hc1 : (w.append name (concatLine h it)).read name = some (c ++ concatLine h it) := by
        rw [World.read_append, hc]
        rfl
      obtain ⟨h1, h2⟩ := ih _ _ cp w1 hc1 hok
      refine ⟨h1, ?_⟩
      rw [h2, concatLine_eq]
      simp [concatContent, List.append_assoc]
    · simp [hw] at hok

theorem stringsSplit_append_sep (sep : Char) (rest : Str) :
    ∀ a : Str, sep ∉ a → stringsSplit sep (a ++ sep :: rest) = a :: stringsSplit sep rest := by
  intro a
  induction a with
  | nil =>
    intro _
    simp [stringsSplit]
  | cons c a ih =>
    intro ha
    have hc : ¬ c = sep := fun e => ha (by simp [e])
    have ha1 : sep ∉ a := fun e => ha (List.mem_cons_of_mem _ e)
    rw [List.cons_append, stringsSplit]
    simp only [hc, if_false, ih ha1]

theorem stringsSplit_concatContent (h : Host) :
    ∀ ml : List Str, (∀ p ∈ ml, '\n' ∉ h.Abs p) →
      stringsSplit '\n' (concatContent h ml) = ml.map (concatEntry h) ++ [[]] := by
  intro ml
  induction ml with
  | nil => intro _; rfl
  | cons p ml ih =>
    intro hn
    have hp : '\n' ∉ concatEntry h p := by
      have h1 := hn p (List.mem_cons_self _ _)
      have h2 : ¬ ('\n' = Char.ofNat 39) := by decide
      simp [concatEntry, h1, h2]
    have hml : ∀ q ∈ ml, '\n' ∉ h.Abs q := fun q hq => hn q (List.mem_cons_of_mem _ hq)
    have hcons : concatContent h (p :: ml) = concatEntry h p ++ '\n' :: concatContent h ml := by
      simp [concatContent]
    rw [hcons, stringsSplit_append_sep '\n' _ _ hp, ih hml]
    rfl

theorem dropCR_concatEntry (h : Host) (p : Str) : dropCR (concatEntry h p) = concatEntry h p := by
  have h1 : (concatEntry h p).getLast? = some (Char.ofNat 39) := by
    unfold concatEntry
    rw [List.getLast?_concat]
  have h2 : ¬ (Char.ofNat 39 = '\r') := by decide
  simp [dropCR, h1, h2]

theorem scanLines_concatContent (h : Host) (ml : List Str)
    (hn : ∀ p ∈ ml, '\n' ∉ h.Abs p) :
    scanLines (concatContent h ml) = ml.map (concatEntry h) := by
  unfold scanLines
  simp only [stringsSplit_concatContent h ml hn, List.getLast?_concat, if_true,
    List.dropLast_concat, List.map_map]
  apply List.map_congr_left
  intro p _
  exact dropCR_concatEntry h p

/-- C8, amended: when `createConcatFile` succeeds with the path `cp`, the
content of `cp` is the concatenation, in the order of the Clip List, of one
line `file '<abs(p)>'` and a newline for each clip `p`; when no absolute path
contains a newline, the lines of the file are these texts, one for each clip,
so `len(ml)` in number. -/
theorem createConcatFile_content (h : Host) (base : Str) (ml : List Str) (s : State)
    (cp : Str) (s1 : State)
    (hok : createConcatFile h base ml s = (.ok cp, s1)) :
    s1.world.read cp = some (concatContent h ml)
      ∧ ((∀ p ∈ ml, '\n' ∉ h.Abs p) →
          scanLines (concatContent h ml) = ml.map (concatEntry h)
            ∧ (scanLines (concatContent h ml)).length = ml.length) := by
  constructor
  · unfold createConcatFile at hok
    cases ht : h.TempFile s.world base "_concat_".toList with
    | none =>
      rw [ht] at hok
      simp at hok
    | some name =>
      rw [ht] at hok
      simp only [Prod.mk.injEq] at hok
      obtain ⟨h1, h2⟩ := writeClips_content h name ml (s.world.create name) [] cp
        (writeClips h name ml (s.world.create name)).2 (World.read_create _ _)
        (Prod.ext hok.1 rfl)
      rw [← hok.2, h1]
      simpa using h2
  · intro hn
    have hl := scanLines_concatContent h ml hn
    exact ⟨hl, by rw [hl, List.length_map]⟩

/-- C8, amended, at the Clip List of the specification's example: two lines, the
clip of `A` then the clip of `B`, with absolute paths. -/
theorem createConcatFile_content_witness :
    (createConcatFile (demoHost [] (fun _ => false)) "tmp".toList
        ["tmp/A_movie-splitcat.mp4".toList, "tmp/B_movie-splitcat.mp4".toList]
        ⟨⟨[]⟩, []⟩).2.world.read "tmp/_concat_1".toList
        = some (concatContent (demoHost [] (fun _ => false))
            ["tmp/A_movie-splitcat.mp4".toList, "tmp/B_movie-splitcat.mp4".toList])
      ∧ concatContent (demoHost [] (fun _ => false))
          ["tmp/A_movie-splitcat.mp4".toList, "tmp/B_movie-splitcat.mp4".toList]
        = "file '/work/tmp/A_movie-splitcat.mp4'\nfile '/work/tmp/B_movie-splitcat.mp4'\n".toList
      ∧ (scanLines (concatContent (demoHost [] (fun _ => false))
          ["tmp/A_movie-splitcat.mp4".toList, "tmp/B_movie-splitcat.mp4".toList])).length = 2 :=
  ⟨(createConcatFile_content (demoHost [] (fun _ => false)) "tmp".toList
      ["tmp/A_movie-splitcat.mp4".toList, "tmp/B_movie-splitcat.mp4".toList]
      ⟨⟨[]⟩, []⟩ "tmp/_concat_1".toList _ (by decide)).1,
    by decide, by decide⟩

/-- C8, as stated, fails: for the Clip List with the one clip
`t<newline>mp/A_movie-splitcat.mp4` (temp directory `t<newline>mp`),
`createConcatFile` succeeds and the file written has two lines, not one. -/
theorem concat_file_lines_newline_in_path :
    (createConcatFile (demoHost [] (fun _ => false)) "t\nmp".toList
        ["t\nmp/A_movie-splitcat.mp4".toList] ⟨⟨[]⟩, []⟩).1 = .ok "t\nmp/_concat_1".toList
      ∧ ((createConcatFile (demoHost [] (fun _ => false)) "t\nmp".toList
          ["t\nmp/A_movie-splitcat.mp4".toList] ⟨⟨[]⟩, []⟩).2.world.read
            "t\nmp/_concat_1".toList).map (fun c => (scanLines c).length) = some 2
      ∧ ["t\nmp/A_movie-splitcat.mp4".toList].length = 1 := by
  decide

end MovieSplitcat
